import Mathlib

/-!
A verification development for a small inverted-index retrieval program
(`retrieve.py`): an `Index` built by repeated `add` calls, four retrieval
models (AND, OR, query likelihood with Dirichlet smoothing, BM25), result
ranking, and query dispatch.

Modelling conventions: Python dictionaries are modelled as insertion-ordered
association lists, Python sets as deduplicated lists in first-seen order,
floating-point arithmetic as real arithmetic, and the exceptions a
computation may raise (`ZeroDivisionError` on `x / 0`, `ValueError` on
`math.log x` for `x ≤ 0`, `IndexError` on out-of-range list indexing) as
`Option`, with `none` marking the raised exception.
-/

/-- A corpus document: `{'storyID': ..., 'text': ...}`. -/
structure Document where
  storyID : String
  text : String

/-- Helper of `pySplit`: walk the characters, `cur` holding the reversed
characters of the token being read. -/
def pySplitAux (cur : List Char) : List Char → List String
  | [] => if cur.isEmpty then [] else [String.mk cur.reverse]
  | c :: cs =>
    if c.isWhitespace then
      if cur.isEmpty then pySplitAux [] cs else String.mk cur.reverse :: pySplitAux [] cs
    else
      pySplitAux (c :: cur) cs

/-- Python `str.split()`: split on whitespace runs, dropping empty pieces. -/
def pySplit (s : String) : List String := pySplitAux [] s.data

/-- Python `str.upper()` (ASCII upcasing, which covers the query tags). -/
def pyUpper (s : String) : String := String.mk (s.data.map Char.toUpper)

/-- Postings of one token: document ID to the 0-based positions of the token. -/
abbrev Postings := List (String × List Nat)

/-- The inverted index mapping: token to its postings. -/
abbrev InvIndex := List (String × Postings)

/-- `Index` of retrieve.py: `self.index`, `self.documents`, `self.docCount`.
The lazily cached aggregates (`totalUniqueTokens`, `totalTokenCount`) are
modelled by their defining computations, which the immutability-after-build
invariant of the source makes equivalent to the cache. -/
structure Index where
  index : InvIndex
  documents : List (String × Document)
  docCount : Nat

/-- The freshly constructed `Index()`. -/
def Index.empty : Index := ⟨[], [], 0⟩

/-- Python dict write `m[k] = f (m.get(k, dflt))` keeping insertion order:
an existing key keeps its slot, a new key is appended at the end. -/
def upsert {α : Type} (m : List (String × α)) (k : String) (dflt : α) (f : α → α) :
    List (String × α) :=
  match m with
  | [] => [(k, f dflt)]
  | (k', v) :: rest => if k' = k then (k', f v) :: rest else (k', v) :: upsert rest k dflt f

/-- First-match association-list lookup, Python's `m[k]` / `k in m`. -/
def alookup {α : Type} (m : List (String × α)) (k : String) : Option α :=
  (m.find? (fun p => p.1 == k)).map (fun p => p.2)

/-- One step of `Index.add`'s token loop:
`self.index[token][document['storyID']].append(i)` with the two
`not in`-guarded dict initialisations. -/
def addToken (pi : InvIndex) (docID : String) (tok : String) (i : Nat) : InvIndex :=
  upsert pi tok [] (fun inner => upsert inner docID [] (fun ps => ps ++ [i]))

/-- `Index.add(document)`: store the document under its storyID, append each
token's position (the running counter `i` is the token's index in the split),
and increment `docCount`. -/
def Index.add (idx : Index) (doc : Document) : Index :=
  { index := ((pySplit doc.text).enum).foldl
      (fun pi p => addToken pi doc.storyID p.2 p.1) idx.index
    documents := upsert idx.documents doc.storyID doc (fun _ => doc)
    docCount := idx.docCount + 1 }

/-- `Index.getPostings`: `self.index[token] if token in self.index else {}`. -/
def Index.getPostings (idx : Index) (token : String) : Postings :=
  match alookup idx.index token with
  | some m => m
  | none => []

/-- `Index.getDocumentIDsForToken`: the keys of the token's postings, `[]` if absent. -/
def Index.getDocumentIDsForToken (idx : Index) (token : String) : List String :=
  match alookup idx.index token with
  | some m => m.map Prod.fst
  | none => []

/-- `Index.getTokenDocumentCount`: number of documents containing the token. -/
def Index.getTokenDocumentCount (idx : Index) (token : String) : Nat :=
  match alookup idx.index token with
  | some m => m.length
  | none => 0

/-- `Index.getDocumentLength`: the stored document's text re-split, 0 if unknown. -/
def Index.getDocumentLength (idx : Index) (docID : String) : Nat :=
  match alookup idx.documents docID with
  | some d => (pySplit d.text).length
  | none => 0

/-- `Index.getTokenFrequencyInDocument`: number of positions of the token in
the document, 0 if either is absent. -/
def Index.getTokenFrequencyInDocument (idx : Index) (token docID : String) : Nat :=
  match alookup idx.index token with
  | some m =>
    match alookup m docID with
    | some ps => ps.length
    | none => 0
  | none => 0

/-- `Index.getTotalTokenFrequency`: total occurrences of the token across all
documents (sum of its position-list lengths), 0 if absent. -/
def Index.getTotalTokenFrequency (idx : Index) (token : String) : Nat :=
  match alookup idx.index token with
  | some m => (m.map (fun p => p.2.length)).sum
  | none => 0

/-- `Index.getTotalTokenCount`: sum of `getTotalTokenFrequency` over the index's
tokens (the lazy cache unfolded). -/
def Index.getTotalTokenCount (idx : Index) : Nat :=
  (idx.index.map (fun p => idx.getTotalTokenFrequency p.1)).sum

/-- `Index.getNumberOfDocuments`: the running `docCount`. -/
def Index.getNumberOfDocuments (idx : Index) : Nat := idx.docCount

/-- `buildIndex(inputFile)`: add every corpus document in order. -/
def buildIndex (corpus : List Document) : Index :=
  corpus.foldl Index.add Index.empty

/-- Python float division, `ZeroDivisionError` as `none`. -/
noncomputable def pyDiv (x y : ℝ) : Option ℝ :=
  if y = 0 then none else some (x / y)

/-- Python `math.log`, `ValueError` (domain error) on a non-positive argument
as `none`. -/
noncomputable def pyLog (x : ℝ) : Option ℝ :=
  if x ≤ 0 then none else some (Real.log x)

/-- `Index.getAverageDocumentLength`: `totalTokenCount / numberOfDocuments`,
raising on an empty index. -/
noncomputable def Index.getAverageDocumentLength (idx : Index) : Option ℝ :=
  pyDiv (idx.getTotalTokenCount : ℝ) (idx.getNumberOfDocuments : ℝ)

/-- Python `acc.add(x)` on a set modelled as a dedup-keeping list append. -/
def pySetAdd (acc : List String) (x : String) : List String :=
  if x ∈ acc then acc else acc ++ [x]

/-- Python `set(l)`. -/
def pySet (l : List String) : List String := l.foldl pySetAdd []

/-- Python `a.union(b)` for a set `a` and iterable `b`. -/
def pySetUnion (a b : List String) : List String := b.foldl pySetAdd a

/-- Python `a.intersection(b)`. -/
def pySetInter (a b : List String) : List String := a.filter (fun x => x ∈ b)

/-- The candidate-document loop shared by OR, QL and BM25:
`documents = documents.union(index.getDocumentIDsForToken(word))` over the
query words, starting from the empty set. -/
def unionDocs (idx : Index) (queryWords : List String) : List String :=
  queryWords.foldl (fun documents word =>
    pySetUnion documents (idx.getDocumentIDsForToken word)) []

/-- The candidate-document loop of `runANDQuery`: the first iteration seeds the
set, later iterations intersect. -/
def andDocs (idx : Index) (queryWords : List String) : List String :=
  match queryWords with
  | [] => []
  | w :: ws => ws.foldl (fun documents word =>
      pySetInter documents (idx.getDocumentIDsForToken word))
      (pySet (idx.getDocumentIDsForToken w))

/-- `QueryResults`: the method tag and the accumulated (document, score) pairs. -/
structure QueryResults where
  method : String
  results : List (String × ℝ)

/-- `runANDQuery`: every surviving document is added with score 1. -/
def runANDQuery (idx : Index) (queryWords : List String) : QueryResults :=
  ⟨"AND", (andDocs idx queryWords).map (fun d => (d, (1 : ℝ)))⟩

/-- `runORQuery`: every candidate document is added with score 1. -/
def runORQuery (idx : Index) (queryWords : List String) : QueryResults :=
  ⟨"OR", (unionDocs idx queryWords).map (fun d => (d, (1 : ℝ)))⟩

/-- One term of `runQLQuery`'s inner loop (μ = 300, the default argument used
by every call): `log((tf + 300 * (ctf / total)) / (len + 300))`, each division
and the log possibly raising. -/
noncomputable def qlTermScore (idx : Index) (docID word : String) : Option ℝ := do
  let cf ← pyDiv (idx.getTotalTokenFrequency word : ℝ) (idx.getTotalTokenCount : ℝ)
  let numerator := (idx.getTokenFrequencyInDocument word docID : ℝ) + 300 * cf
  let denominator := (idx.getDocumentLength docID : ℝ) + 300
  let ratio ← pyDiv numerator denominator
  pyLog ratio

/-- `runQLQuery`'s `score` accumulation over the query words for one document. -/
noncomputable def qlScoreLoop (idx : Index) (docID : String) (score : ℝ) :
    List String → Option ℝ
  | [] => some score
  | word :: rest =>
    match qlTermScore idx docID word with
    | none => none
    | some s => qlScoreLoop idx docID (score + s) rest

/-- Monadic map over `Option`: the per-document loops of QL/BM25, where an
exception for any document aborts the whole query. -/
def optMapList {α β : Type} (h : α → Option β) : List α → Option (List β)
  | [] => some []
  | x :: xs =>
    match h x with
    | none => none
    | some y => (optMapList h xs).map (fun ys => y :: ys)

/-- `runQLQuery(index, queryWords, u=300)`. -/
noncomputable def runQLQuery (idx : Index) (queryWords : List String) :
    Option QueryResults :=
  (optMapList (fun docID => (qlScoreLoop idx docID 0 queryWords).map
      (fun s => (docID, s)))
    (unionDocs idx queryWords)).map (fun rs => ⟨"QL", rs⟩)

/-- The three factors of one BM25 term (k1 = 1.8, k2 = 5, b = 0.75, qf = 1, the
default arguments used by every call), with the divisions and the log possibly
raising.  The debug prints of the source are omitted. -/
noncomputable def bm25Terms (idx : Index) (bigK : ℝ) (docID word : String) :
    Option (ℝ × ℝ × ℝ) := do
  let q_fi : ℝ := 1
  let f_i := (idx.getTokenFrequencyInDocument word docID : ℝ)
  let n_i := (idx.getTokenDocumentCount word : ℝ)
  let bigN := (idx.getNumberOfDocuments : ℝ)
  let r1 ← pyDiv (bigN - n_i + 0.5) (n_i + 0.5)
  let term1 ← pyLog r1
  let term2 ← pyDiv ((1.8 + 1) * f_i) (bigK + f_i)
  let term3 ← pyDiv ((5 + 1) * q_fi) (5 + q_fi)
  pure (term1, term2, term3)

/-- `runBM25Query`'s `score` accumulation: a term's product is added only when
all three factors are nonzero. -/
noncomputable def bm25ScoreLoop (idx : Index) (bigK : ℝ) (docID : String)
    (score : ℝ) : List String → Option ℝ
  | [] => some score
  | word :: rest =>
    match bm25Terms idx bigK docID word with
    | none => none
    | some (t1, t2, t3) =>
      if t1 ≠ 0 ∧ t2 ≠ 0 ∧ t3 ≠ 0 then
        bm25ScoreLoop idx bigK docID (score + t1 * t2 * t3) rest
      else
        bm25ScoreLoop idx bigK docID score rest

/-- One document of `runBM25Query`: `bigK` is computed once, then the term loop
runs. -/
noncomputable def bm25DocScore (idx : Index) (docID : String)
    (queryWords : List String) : Option ℝ := do
  let avg ← idx.getAverageDocumentLength
  let lenRatio ← pyDiv (idx.getDocumentLength docID : ℝ) avg
  let bigK := 1.8 * ((1 - 0.75) + 0.75 * lenRatio)
  bm25ScoreLoop idx bigK docID 0 queryWords

/-- `runBM25Query(index, queryWords, k1=1.8, k2=5, b=0.75)`. -/
noncomputable def runBM25Query (idx : Index) (queryWords : List String) :
    Option QueryResults :=
  (optMapList (fun docID => (bm25DocScore idx docID queryWords).map
      (fun s => (docID, s)))
    (unionDocs idx queryWords)).map (fun rs => ⟨"BM25", rs⟩)

/-- Stable insertion of `x` before the first element `y` with `le x y`. -/
def insertOrd {α : Type} (le : α → α → Bool) (x : α) : List α → List α
  | [] => [x]
  | y :: ys => if le x y then x :: y :: ys else y :: insertOrd le x ys

/-- Stable insertion sort, the model of Python's stable `list.sort`. -/
def sortOrd {α : Type} (le : α → α → Bool) : List α → List α
  | [] => []
  | x :: xs => insertOrd le x (sortOrd le xs)

/-- The rank-assignment loop of `getFinalResults`: ranks count up from the
initial `rank = 1`.  A row is (document, rank, score); the f-string
presentation (query name, `skip` column, run tag, 4-decimal rounding) is
abstracted to the row's fields. -/
def rankFrom (rank : Nat) : List (String × ℝ) → List (String × Nat × ℝ)
  | [] => []
  | (d, s) :: rest => (d, rank, s) :: rankFrom (rank + 1) rest

/-- `QueryResults.getFinalResults`: AND/OR sort ascending by document ID, every
other method sorts descending by score (stably), then ranks 1..N are assigned
in order. -/
noncomputable def QueryResults.getFinalResults (qr : QueryResults) :
    List (String × Nat × ℝ) :=
  if qr.method = "AND" ∨ qr.method = "OR" then
    rankFrom 1 (sortOrd (fun a b => decide (a.1 ≤ b.1)) qr.results)
  else
    rankFrom 1 (sortOrd (fun a b => decide (b.2 ≤ a.2)) qr.results)

/-- A parsed query line: type tag, display name, term list. -/
structure Query where
  type : String
  queryName : String
  queryWords : List String

/-- The dispatch of `runQueries` for one query: a recognised tag (compared
upper-cased) appends its model's result to the results list, an unrecognised
tag appends nothing. -/
noncomputable def dispatchQuery (idx : Index) (q : Query) :
    Option (List QueryResults) :=
  if pyUpper q.type = "AND" then some [runANDQuery idx q.queryWords]
  else if pyUpper q.type = "OR" then some [runORQuery idx q.queryWords]
  else if pyUpper q.type = "QL" then (runQLQuery idx q.queryWords).map (fun r => [r])
  else if pyUpper q.type = "BM25" then (runBM25Query idx q.queryWords).map (fun r => [r])
  else some []

/-- `runQueries` with the file I/O abstracted away: dispatch every parsed
query, then the output loop pairs `queries[i].queryName` with
`results[i].getFinalResults()` for `i` in `range(len(queries))`; the
out-of-range access `results[i]` raises `IndexError` (`none`). -/
noncomputable def runQueries (idx : Index) (queries : List Query) :
    Option (List (String × List (String × Nat × ℝ))) := do
  let resultLists ← optMapList (dispatchQuery idx) queries
  let results := resultLists.flatten
  optMapList (fun i =>
      match results[i]? with
      | some r => some (((queries[i]?).map (fun q => q.queryName)).getD "",
          r.getFinalResults)
      | none => none)
    (List.range queries.length)

/-- The QL score stated by the spec: the sum, over the query term occurrences,
of `log((tf(t,d) + 300 * (ctf(t) / totalTokenCount)) / (len(d) + 300))`. -/
noncomputable def qlSpecScore (idx : Index) (queryWords : List String)
    (docID : String) : ℝ :=
  (queryWords.map (fun t =>
    Real.log (((idx.getTokenFrequencyInDocument t docID : ℝ)
        + 300 * ((idx.getTotalTokenFrequency t : ℝ) / (idx.getTotalTokenCount : ℝ)))
      / ((idx.getDocumentLength docID : ℝ) + 300)))).sum

/-- The numerator of one QL term, as a total real-valued expression. -/
noncomputable def qlNum (idx : Index) (t docID : String) : ℝ :=
  (idx.getTokenFrequencyInDocument t docID : ℝ)
    + 300 * ((idx.getTotalTokenFrequency t : ℝ) / (idx.getTotalTokenCount : ℝ))

/-- BM25's per-document `K = k1 * ((1-b) + b * len(d) / avgdl)`. -/
noncomputable def bm25SpecK (idx : Index) (docID : String) : ℝ :=
  1.8 * ((1 - 0.75) + 0.75 * ((idx.getDocumentLength docID : ℝ)
    / ((idx.getTotalTokenCount : ℝ) / (idx.getNumberOfDocuments : ℝ))))

/-- BM25's `term1 = log((N - n + 0.5) / (n + 0.5))`. -/
noncomputable def bm25SpecTerm1 (idx : Index) (t : String) : ℝ :=
  Real.log (((idx.getNumberOfDocuments : ℝ) - (idx.getTokenDocumentCount t : ℝ) + 0.5)
    / ((idx.getTokenDocumentCount t : ℝ) + 0.5))

/-- BM25's `term2 = ((k1+1) * f) / (K + f)`. -/
noncomputable def bm25SpecTerm2 (idx : Index) (t docID : String) : ℝ :=
  ((1.8 + 1) * (idx.getTokenFrequencyInDocument t docID : ℝ))
    / (bm25SpecK idx docID + (idx.getTokenFrequencyInDocument t docID : ℝ))

/-- BM25's `term3 = ((k2+1) * qf) / (k2 + qf)` with k2 = 5 and qf = 1. -/
noncomputable def bm25SpecTerm3 : ℝ := ((5 + 1) * 1) / (5 + 1)

/-- One BM25 term occurrence's contribution, with the source's explicit skip:
the product counts only when all three factors are nonzero. -/
noncomputable def bm25SpecContribution (idx : Index) (t docID : String) : ℝ :=
  if bm25SpecTerm1 idx t ≠ 0 ∧ bm25SpecTerm2 idx t docID ≠ 0 ∧ bm25SpecTerm3 ≠ 0 then
    bm25SpecTerm1 idx t * bm25SpecTerm2 idx t docID * bm25SpecTerm3
  else 0

/-- The BM25 score stated by the spec: the sum of the guarded contributions
over the query term occurrences. -/
noncomputable def bm25SpecScore (idx : Index) (queryWords : List String)
    (docID : String) : ℝ :=
  (queryWords.map (fun t => bm25SpecContribution idx t docID)).sum

/-- The score `runQLQuery` assigned to a document: `none` when the query
raised, `some none` when the document is not in the result set. -/
noncomputable def qlAssigned (idx : Index) (q : List String) (d : String) :
    Option (Option ℝ) :=
  (runQLQuery idx q).map (fun r => alookup r.results d)

/-- The score `runBM25Query` assigned to a document. -/
noncomputable def bm25Assigned (idx : Index) (q : List String) (d : String) :
    Option (Option ℝ) :=
  (runBM25Query idx q).map (fun r => alookup r.results d)

/-- Keys of an association list. -/
def keysOf {α : Type} (m : List (String × α)) : List String := m.map Prod.fst

/-- The structural token total of an inverted index: all position-list lengths
summed. -/
def structTotal (pi : InvIndex) : Nat :=
  (pi.map (fun p => (p.2.map (fun e => e.2.length)).sum)).sum

/-- Invariants of every reachable (built) index. -/
structure IndexWF (idx : Index) : Prop where
  outerNodup : (keysOf idx.index).Nodup
  innerNodup : ∀ p ∈ idx.index, (keysOf p.2).Nodup
  posNonempty : ∀ p ∈ idx.index, ∀ e ∈ p.2, e.2 ≠ []
  innerSub : ∀ p ∈ idx.index, ∀ e ∈ p.2, e.1 ∈ keysOf idx.documents
  docsLe : idx.documents.length ≤ idx.docCount

/-- Well-formedness of an inverted-index mapping relative to a set of known
document IDs: distinct token keys, distinct document keys per token, non-empty
position lists, and postings only for known documents. -/
def PiWF (dockeys : List String) (pi : InvIndex) : Prop :=
  (keysOf pi).Nodup ∧
    (∀ p ∈ pi, (keysOf p.2).Nodup) ∧
    (∀ p ∈ pi, ∀ e ∈ p.2, e.2 ≠ []) ∧
    (∀ p ∈ pi, ∀ e ∈ p.2, e.1 ∈ dockeys)

/-- Success condition of `runQLQuery`: every candidate document and query term
reaches a positive log argument (and the collection is non-empty if the
per-document loop runs at all). -/
noncomputable def qlDefined (idx : Index) (q : List String) : Prop :=
  ∀ d ∈ unionDocs idx q, ∀ t ∈ q,
    (idx.getTotalTokenCount : ℝ) ≠ 0 ∧ 0 < qlNum idx t d

/-- Success condition of `runBM25Query`: either no candidates, or a non-empty
corpus with a positive token total and no term contained in more documents
than the corpus holds. -/
def bm25Defined (idx : Index) (q : List String) : Prop :=
  unionDocs idx q = [] ∨
    (0 < idx.getNumberOfDocuments ∧ 0 < idx.getTotalTokenCount ∧
      ∀ t ∈ q, idx.getTokenDocumentCount t ≤ idx.getNumberOfDocuments)

/-! Basic facts about the Python-set model. -/

theorem mem_pySetAdd {acc : List String} {x y : String} :
    y ∈ pySetAdd acc x ↔ y ∈ acc ∨ y = x := by
  by_cases h : x ∈ acc
  · simp only [pySetAdd, if_pos h]
    exact ⟨Or.inl, fun hy => hy.elim id (fun e => e ▸ h)⟩
  · simp [pySetAdd, if_neg h]

theorem nodup_pySetAdd {acc : List String} {x : String} (h : acc.Nodup) :
    (pySetAdd acc x).Nodup := by
  by_cases hx : x ∈ acc
  · simpa [pySetAdd, if_pos hx] using h
  · simp [pySetAdd, if_neg hx, List.nodup_append, h, hx]

theorem mem_foldl_pySetAdd (l : List String) :
    ∀ acc y, y ∈ l.foldl pySetAdd acc ↔ y ∈ acc ∨ y ∈ l := by
  induction l with
  | nil => simp
  | cons x xs ih =>
    intro acc y
    simp only [List.foldl_cons, ih, mem_pySetAdd, List.mem_cons]
    tauto

theorem nodup_foldl_pySetAdd (l : List String) :
    ∀ acc, acc.Nodup → (l.foldl pySetAdd acc).Nodup := by
  induction l with
  | nil => exact fun _ h => h
  | cons x xs ih => exact fun acc h => ih _ (nodup_pySetAdd h)

theorem mem_pySet {l : List String} {y : String} : y ∈ pySet l ↔ y ∈ l := by
  simp [pySet, mem_foldl_pySetAdd]

theorem nodup_pySet (l : List String) : (pySet l).Nodup :=
  nodup_foldl_pySetAdd l [] List.nodup_nil

theorem mem_pySetUnion {a b : List String} {y : String} :
    y ∈ pySetUnion a b ↔ y ∈ a ∨ y ∈ b :=
  mem_foldl_pySetAdd b a y

theorem nodup_pySetUnion {a b : List String} (h : a.Nodup) : (pySetUnion a b).Nodup :=
  nodup_foldl_pySetAdd b a h

theorem mem_pySetInter {a b : List String} {y : String} :
    y ∈ pySetInter a b ↔ y ∈ a ∧ y ∈ b := by
  simp [pySetInter]

theorem nodup_pySetInter {a b : List String} (h : a.Nodup) : (pySetInter a b).Nodup :=
  List.Nodup.filter _ h

theorem mem_unionDocs {idx : Index} {q : List String} {y : String} :
    y ∈ unionDocs idx q ↔ ∃ t ∈ q, y ∈ idx.getDocumentIDsForToken t := by
  have aux : ∀ (l : List String) (acc : List String) (y : String),
      (y ∈ l.foldl (fun documents word =>
          pySetUnion documents (idx.getDocumentIDsForToken word)) acc ↔
        y ∈ acc ∨ ∃ t ∈ l, y ∈ idx.getDocumentIDsForToken t) := by
    intro l
    induction l with
    | nil => simp
    | cons w ws ih =>
      intro acc y
      simp only [List.foldl_cons, ih, mem_pySetUnion, List.mem_cons]
      constructor
      · rintro ((h | h) | ⟨t, ht, h⟩)
        · exact Or.inl h
        · exact Or.inr ⟨w, Or.inl rfl, h⟩
        · exact Or.inr ⟨t, Or.inr ht, h⟩
      · rintro (h | ⟨t, (rfl | ht), h⟩)
        · exact Or.inl (Or.inl h)
        · exact Or.inl (Or.inr h)
        · exact Or.inr ⟨t, ht, h⟩
  simpa using aux q [] y

theorem nodup_unionDocs (idx : Index) (q : List String) : (unionDocs idx q).Nodup := by
  have aux : ∀ (l : List String) (acc : List String), acc.Nodup →
      (l.foldl (fun documents word =>
        pySetUnion documents (idx.getDocumentIDsForToken word)) acc).Nodup := by
    intro l
    induction l with
    | nil => exact fun _ h => h
    | cons w ws ih => exact fun acc h => ih _ (nodup_pySetUnion h)
  exact aux q [] List.nodup_nil

theorem mem_andDocs {idx : Index} {w : String} {ws : List String} {y : String} :
    y ∈ andDocs idx (w :: ws) ↔
      y ∈ idx.getDocumentIDsForToken w ∧ ∀ t ∈ ws, y ∈ idx.getDocumentIDsForToken t := by
  have aux : ∀ (l : List String) (acc : List String) (y : String),
      (y ∈ l.foldl (fun documents word =>
          pySetInter documents (idx.getDocumentIDsForToken word)) acc ↔
        y ∈ acc ∧ ∀ t ∈ l, y ∈ idx.getDocumentIDsForToken t) := by
    intro l
    induction l with
    | nil => simp
    | cons v vs ih =>
      intro acc y
      simp only [List.foldl_cons, ih, mem_pySetInter, List.mem_cons]
      constructor
      · rintro ⟨⟨h1, h2⟩, h3⟩
        exact ⟨h1, fun t ht => ht.elim (fun e => e ▸ h2) (h3 t)⟩
      · rintro ⟨h1, h2⟩
        exact ⟨⟨h1, h2 v (Or.inl rfl)⟩, fun t ht => h2 t (Or.inr ht)⟩
  simp only [andDocs, aux ws _ y, mem_pySet]

/-! Facts about the insertion-ordered dictionary model. -/

theorem alookup_cons {α : Type} (k' : String) (v : α) (rest : List (String × α))
    (k : String) :
    alookup ((k', v) :: rest) k = if k' = k then some v else alookup rest k := by
  by_cases h : k' = k
  · simp [alookup, List.find?_cons, h]
  · simp [alookup, List.find?_cons, beq_eq_false_iff_ne.mpr h, h]

theorem alookup_mem {α : Type} {m : List (String × α)} {k : String} {v : α}
    (h : alookup m k = some v) : ∃ p ∈ m, p.1 = k ∧ p.2 = v := by
  simp only [alookup, Option.map_eq_some'] at h
  obtain ⟨p, hp, rfl⟩ := h
  exact ⟨p, List.mem_of_find?_eq_some hp, by simpa using List.find?_some hp, rfl⟩

theorem alookup_self_of_nodup {α : Type} {m : List (String × α)}
    (hm : (keysOf m).Nodup) : ∀ p ∈ m, alookup m p.1 = some p.2 := by
  induction m with
  | nil => intro p hp; cases hp
  | cons q rest ih =>
    obtain ⟨k', v⟩ := q
    intro p hp
    simp only [keysOf, List.map_cons, List.nodup_cons] at hm
    rcases List.mem_cons.mp hp with rfl | hp'
    · rw [alookup_cons, if_pos rfl]
    · have hne : k' ≠ p.1 := by
        intro e
        exact hm.1 (e ▸ List.mem_map_of_mem Prod.fst hp')
      rw [alookup_cons, if_neg hne]
      exact ih hm.2 p hp'

theorem keysOf_upsert {α : Type} (m : List (String × α)) (k : String) (dflt : α)
    (f : α → α) :
    keysOf (upsert m k dflt f) =
      if k ∈ keysOf m then keysOf m else keysOf m ++ [k] := by
  induction m with
  | nil => simp [upsert, keysOf]
  | cons p rest ih =>
    obtain ⟨k', v⟩ := p
    by_cases h : k' = k
    · subst h
      simp [upsert, keysOf]
    · simp only [upsert, if_neg h, keysOf, List.map_cons] at ih ⊢
      by_cases h2 : k ∈ List.map Prod.fst rest
      · simp [ih, h2, List.mem_cons]
      · have h3 : ¬(k = k' ∨ k ∈ List.map Prod.fst rest) := by
          rintro (rfl | hh)
          · exact h rfl
          · exact h2 hh
        simp only [ih, if_neg h2, List.mem_cons, if_neg h3]
        simp

theorem mem_keysOf_upsert_self {α : Type} (m : List (String × α)) (k : String)
    (dflt : α) (f : α → α) : k ∈ keysOf (upsert m k dflt f) := by
  rw [keysOf_upsert]
  by_cases h : k ∈ keysOf m
  · rwa [if_pos h]
  · simp [h]

theorem mem_keysOf_upsert_mono {α : Type} {m : List (String × α)} {x : String}
    (k : String) (dflt : α) (f : α → α) (h : x ∈ keysOf m) :
    x ∈ keysOf (upsert m k dflt f) := by
  rw [keysOf_upsert]
  by_cases h2 : k ∈ keysOf m <;> simp [h2, h]

theorem nodup_keysOf_upsert {α : Type} {m : List (String × α)} (k : String)
    (dflt : α) (f : α → α) (h : (keysOf m).Nodup) :
    (keysOf (upsert m k dflt f)).Nodup := by
  rw [keysOf_upsert]
  by_cases h2 : k ∈ keysOf m
  · simpa [h2] using h
  · simp [h2, List.nodup_append, h]

theorem length_upsert_le {α : Type} (m : List (String × α)) (k : String) (dflt : α)
    (f : α → α) : (upsert m k dflt f).length ≤ m.length + 1 := by
  induction m with
  | nil => simp [upsert]
  | cons p rest ih =>
    obtain ⟨k', v⟩ := p
    by_cases h : k' = k
    · simp [upsert, h]
    · simpa [upsert, h] using ih

theorem mem_upsert_cases {α : Type} {m : List (String × α)} {k : String} {dflt : α}
    {f : α → α} :
    ∀ p ∈ upsert m k dflt f,
      p ∈ m ∨ (p.1 = k ∧ (p.2 = f dflt ∨ ∃ v, (k, v) ∈ m ∧ p.2 = f v)) := by
  induction m with
  | nil =>
    intro p hp
    rcases List.mem_singleton.mp hp with rfl
    exact Or.inr ⟨rfl, Or.inl rfl⟩
  | cons q rest ih =>
    obtain ⟨k', v⟩ := q
    intro p hp
    by_cases h : k' = k
    · subst h
      rw [upsert, if_pos rfl] at hp
      rcases List.mem_cons.mp hp with rfl | hp'
      · exact Or.inr ⟨rfl, Or.inr ⟨v, List.mem_cons_self _ _, rfl⟩⟩
      · exact Or.inl (List.mem_cons_of_mem _ hp')
    · rw [upsert, if_neg h] at hp
      rcases List.mem_cons.mp hp with rfl | hp'
      · exact Or.inl (List.mem_cons_self _ _)
      · rcases ih p hp' with h1 | ⟨h1, h2⟩
        · exact Or.inl (List.mem_cons_of_mem _ h1)
        · refine Or.inr ⟨h1, h2.elim Or.inl (fun ⟨w, hw, he⟩ =>
            Or.inr ⟨w, List.mem_cons_of_mem _ hw, he⟩)⟩

theorem alookup_upsert_self {α : Type} (m : List (String × α)) (k : String)
    (dflt : α) (f : α → α) :
    alookup (upsert m k dflt f) k = some (f ((alookup m k).getD dflt)) := by
  induction m with
  | nil => simp [upsert, alookup_cons, alookup]
  | cons q rest ih =>
    obtain ⟨k', v⟩ := q
    by_cases h : k' = k
    · rw [upsert, if_pos h, alookup_cons, if_pos h, alookup_cons, if_pos h]
      rfl
    · rw [upsert, if_neg h, alookup_cons, if_neg h, alookup_cons, if_neg h]
      exact ih

theorem alookup_upsert_other {α : Type} (m : List (String × α)) (k k₀ : String)
    (dflt : α) (f : α → α) (h : k₀ ≠ k) :
    alookup (upsert m k dflt f) k₀ = alookup m k₀ := by
  induction m with
  | nil => simp [upsert, alookup_cons, Ne.symm h, alookup]
  | cons q rest ih =>
    obtain ⟨k', v⟩ := q
    by_cases h2 : k' = k
    · subst h2
      rw [upsert, if_pos rfl, alookup_cons, alookup_cons, if_neg (fun e => h e.symm),
        if_neg (fun e => h e.symm)]
    · rw [upsert, if_neg h2, alookup_cons, alookup_cons]
      by_cases h3 : k' = k₀
      · simp [h3]
      · simp [h3, ih]

/-! The `Option`-monadic loop combinator. -/

theorem optMapList_eq_some {α β : Type} (h : α → Option β) (g : α → β) :
    ∀ l : List α, (∀ x ∈ l, h x = some (g x)) → optMapList h l = some (l.map g) := by
  intro l
  induction l with
  | nil => intro _; rfl
  | cons x xs ih =>
    intro hall
    rw [optMapList, hall x (List.mem_cons_self x xs),
      ih (fun y hy => hall y (List.mem_cons_of_mem x hy))]
    rfl

theorem optMapList_eq_none {α β : Type} (h : α → Option β) {l : List α} {x : α}
    (hx : x ∈ l) (hn : h x = none) : optMapList h l = none := by
  induction l with
  | nil => cases hx
  | cons y ys ih =>
    rcases List.mem_cons.mp hx with rfl | hx'
    · rw [optMapList, hn]
    · rw [optMapList]
      cases hy : h y
      · rfl
      · rw [ih hx']
        rfl

/-! Preservation of the build invariants. -/

theorem foldl_preserve {α β : Type} (P : α → Prop) (g : α → β → α)
    (hg : ∀ a b, P a → P (g a b)) : ∀ (l : List β) (a : α), P a → P (l.foldl g a) := by
  intro l
  induction l with
  | nil => exact fun _ h => h
  | cons x xs ih => exact fun a h => ih (g a x) (hg a x h)

theorem piWF_mono {d1 d2 : List String} {pi : InvIndex} (h : PiWF d1 pi)
    (hsub : ∀ x ∈ d1, x ∈ d2) : PiWF d2 pi :=
  ⟨h.1, h.2.1, h.2.2.1, fun p hp e he => hsub _ (h.2.2.2 p hp e he)⟩

theorem piWF_addToken {dockeys : List String} {pi : InvIndex} {docID tok : String}
    {i : Nat} (hdoc : docID ∈ dockeys) (h : PiWF dockeys pi) :
    PiWF dockeys (addToken pi docID tok i) := by
  obtain ⟨h1, h2, h3, h4⟩ := h
  have inner_entries : ∀ (inner : Postings), (keysOf inner).Nodup →
      (∀ e ∈ inner, e.2 ≠ []) → (∀ e ∈ inner, e.1 ∈ dockeys) →
      (keysOf (upsert inner docID [] (fun ps => ps ++ [i]))).Nodup ∧
        (∀ e ∈ upsert inner docID [] (fun ps => ps ++ [i]), e.2 ≠ []) ∧
        (∀ e ∈ upsert inner docID [] (fun ps => ps ++ [i]), e.1 ∈ dockeys) := by
    intro inner hn hne hsub
    refine ⟨nodup_keysOf_upsert _ _ _ hn, ?_, ?_⟩
    · intro e he
      rcases mem_upsert_cases e he with h' | ⟨_, h'⟩
      · exact hne e h'
      · rcases h' with h' | ⟨v, _, h'⟩ <;> simp [h']
    · intro e he
      rcases mem_upsert_cases e he with h' | ⟨h', _⟩
      · exact hsub e h'
      · exact h' ▸ hdoc
  refine ⟨nodup_keysOf_upsert _ _ _ h1, ?_, ?_, ?_⟩ <;> intro p hp
  · rcases mem_upsert_cases p hp with h' | ⟨_, h'⟩
    · exact h2 p h'
    · rcases h' with h' | ⟨v, hv, h'⟩
      · rw [h']
        exact (inner_entries [] List.nodup_nil (by simp) (by simp)).1
      · rw [h']
        exact (inner_entries v (h2 _ hv) (h3 _ hv) (h4 _ hv)).1
  · rcases mem_upsert_cases p hp with h' | ⟨_, h'⟩
    · exact h3 p h'
    · rcases h' with h' | ⟨v, hv, h'⟩
      · rw [h']
        exact (inner_entries [] List.nodup_nil (by simp) (by simp)).2.1
      · rw [h']
        exact (inner_entries v (h2 _ hv) (h3 _ hv) (h4 _ hv)).2.1
  · rcases mem_upsert_cases p hp with h' | ⟨_, h'⟩
    · exact h4 p h'
    · rcases h' with h' | ⟨v, hv, h'⟩
      · rw [h']
        exact (inner_entries [] List.nodup_nil (by simp) (by simp)).2.2
      · rw [h']
        exact (inner_entries v (h2 _ hv) (h3 _ hv) (h4 _ hv)).2.2

theorem indexWF_add {idx : Index} (h : IndexWF idx) (doc : Document) :
    IndexWF (idx.add doc) := by
  have hpi : PiWF (keysOf idx.documents) idx.index :=
    ⟨h.outerNodup, h.innerNodup, h.posNonempty, h.innerSub⟩
  have hmono : PiWF (keysOf (upsert idx.documents doc.storyID doc (fun _ => doc)))
      idx.index :=
    piWF_mono hpi (fun x hx => mem_keysOf_upsert_mono _ _ _ hx)
  have hdoc : doc.storyID ∈
      keysOf (upsert idx.documents doc.storyID doc (fun _ => doc)) :=
    mem_keysOf_upsert_self _ _ _ _
  have hfold := foldl_preserve
    (PiWF (keysOf (upsert idx.documents doc.storyID doc (fun _ => doc))))
    (fun pi p => addToken pi doc.storyID p.2 p.1)
    (fun pi p hp => piWF_addToken hdoc hp)
    ((pySplit doc.text).enum) idx.index hmono
  refine ⟨hfold.1, hfold.2.1, hfold.2.2.1, hfold.2.2.2, ?_⟩
  calc (upsert idx.documents doc.storyID doc (fun _ => doc)).length
      ≤ idx.documents.length + 1 := length_upsert_le _ _ _ _
    _ ≤ idx.docCount + 1 := Nat.add_le_add_right h.docsLe 1

theorem indexWF_empty : IndexWF Index.empty :=
  ⟨List.nodup_nil, fun p hp => absurd hp (List.not_mem_nil p),
    fun p hp => absurd hp (List.not_mem_nil p),
    fun p hp => absurd hp (List.not_mem_nil p), Nat.le_refl 0⟩

theorem indexWF_buildIndex (corpus : List Document) : IndexWF (buildIndex corpus) :=
  foldl_preserve IndexWF Index.add (fun _ doc h => indexWF_add h doc)
    corpus Index.empty indexWF_empty

/-! Counting facts. -/

theorem docCount_foldl_add :
    ∀ (docs : List Document) (idx : Index),
      (docs.foldl Index.add idx).docCount = idx.docCount + docs.length := by
  intro docs
  induction docs with
  | nil => simp
  | cons d ds ih =>
    intro idx
    rw [List.foldl_cons, ih]
    simp [Index.add]
    omega

theorem docCount_buildIndex (docs : List Document) :
    (buildIndex docs).docCount = docs.length := by
  rw [buildIndex, docCount_foldl_add]
  simp [Index.empty]

theorem getTotalTokenFrequency_le_total (idx : Index) (t : String) :
    idx.getTotalTokenFrequency t ≤ idx.getTotalTokenCount := by
  rcases halo : alookup idx.index t with _ | m
  · rw [Index.getTotalTokenFrequency, halo]
    exact Nat.zero_le _
  · obtain ⟨p, hp, hpk, _⟩ := alookup_mem halo
    have hmem : idx.getTotalTokenFrequency t ∈
        idx.index.map (fun q => idx.getTotalTokenFrequency q.1) := by
      rw [← hpk]
      exact List.mem_map_of_mem _ hp
    exact List.single_le_sum (fun x _ => Nat.zero_le x) _ hmem

theorem total_pos_of_docsFor_ne_nil {idx : Index} {t : String} (wf : IndexWF idx)
    (h : idx.getDocumentIDsForToken t ≠ []) : 0 < idx.getTotalTokenCount := by
  rcases halo : alookup idx.index t with _ | m
  · rw [Index.getDocumentIDsForToken, halo] at h
    exact absurd rfl h
  · obtain ⟨p, hp, hpk, hpv⟩ := alookup_mem halo
    rw [Index.getDocumentIDsForToken, halo] at h
    rcases m with _ | ⟨e, rest⟩
    · exact absurd rfl h
    · have he : e ∈ p.2 := hpv ▸ List.mem_cons_self e rest
      have hne := wf.posNonempty p hp e he
      have h1 : 1 ≤ e.2.length := by
        rcases e2 : e.2 with _ | _
        · exact absurd e2 hne
        · simp
      have h2 : e.2.length ≤ idx.getTotalTokenFrequency t := by
        rw [Index.getTotalTokenFrequency, halo]
        exact List.single_le_sum (fun x _ => Nat.zero_le x) _
          (List.mem_map_of_mem _ (List.mem_cons_self e rest))
      have h3 := getTotalTokenFrequency_le_total idx t
      omega

theorem tokenDocCount_le_docCount {idx : Index} (wf : IndexWF idx) (t : String) :
    idx.getTokenDocumentCount t ≤ idx.getNumberOfDocuments := by
  rcases halo : alookup idx.index t with _ | m
  · rw [Index.getTokenDocumentCount, halo]
    exact Nat.zero_le _
  · obtain ⟨p, hp, _, hpv⟩ := alookup_mem halo
    rw [Index.getTokenDocumentCount, halo]
    have hnodup : (keysOf m).Nodup := hpv ▸ wf.innerNodup p hp
    have hsub : keysOf m ⊆ keysOf idx.documents := by
      intro x hx
      rw [← hpv] at hx
      obtain ⟨e, he, rfl⟩ := List.mem_map.mp hx
      exact wf.innerSub p hp e he
    have h1 : (keysOf m).length ≤ (keysOf idx.documents).length :=
      (List.subperm_of_subset hnodup hsub).length_le
    have h2 : m.length ≤ idx.documents.length := by
      simpa [keysOf] using h1
    exact h2.trans (wf.docsLe)

theorem docCount_pos_of_total_pos (docs : List Document)
    (h : 0 < (buildIndex docs).getTotalTokenCount) :
    0 < (buildIndex docs).getNumberOfDocuments := by
  rcases docs with _ | ⟨d, rest⟩
  · exact absurd h (by decide)
  · rw [Index.getNumberOfDocuments, docCount_buildIndex]
    simp

/-! Characterisation of `runQLQuery`. -/

theorem qlTermScore_eq (idx : Index) (docID t : String) :
    qlTermScore idx docID t =
      if (idx.getTotalTokenCount : ℝ) = 0 ∨ qlNum idx t docID ≤ 0 then none
      else some (Real.log (qlNum idx t docID /
        ((idx.getDocumentLength docID : ℝ) + 300))) := by
  have hden : ((idx.getDocumentLength docID : ℝ) + 300) ≠ 0 := by positivity
  have hdenpos : (0 : ℝ) < (idx.getDocumentLength docID : ℝ) + 300 := by positivity
  by_cases h1 : (idx.getTotalTokenCount : ℝ) = 0
  · rw [if_pos (Or.inl h1)]
    simp [qlTermScore, pyDiv, h1]
  · have hnum : qlNum idx t docID = (idx.getTokenFrequencyInDocument t docID : ℝ) +
        300 * ((idx.getTotalTokenFrequency t : ℝ) / (idx.getTotalTokenCount : ℝ)) := rfl
    have hiff : qlNum idx t docID / ((idx.getDocumentLength docID : ℝ) + 300) ≤ 0 ↔
        qlNum idx t docID ≤ 0 := by
      rw [div_nonpos_iff]
      constructor
      · rintro (⟨_, hd⟩ | ⟨hn, _⟩)
        · linarith
        · exact hn
      · intro hn
        exact Or.inr ⟨hn, le_of_lt hdenpos⟩
    by_cases h2 : qlNum idx t docID ≤ 0
    · rw [if_pos (Or.inr h2)]
      simp only [qlTermScore, pyDiv, pyLog, if_neg h1, if_neg hden, Option.bind_eq_bind,
        Option.some_bind]
      rw [← hnum, if_pos (hiff.mpr h2)]
    · rw [if_neg (by tauto)]
      simp only [qlTermScore, pyDiv, pyLog, if_neg h1, if_neg hden, Option.bind_eq_bind,
        Option.some_bind]
      rw [← hnum, if_neg (fun hc => h2 (hiff.mp hc))]

theorem qlScoreLoop_some {idx : Index} {docID : String} {q : List String}
    (h : ∀ t ∈ q, ¬((idx.getTotalTokenCount : ℝ) = 0 ∨ qlNum idx t docID ≤ 0)) :
    ∀ a : ℝ, qlScoreLoop idx docID a q = some (a + qlSpecScore idx q docID) := by
  induction q with
  | nil =>
    intro a
    simp [qlScoreLoop, qlSpecScore]
  | cons t ts ih =>
    intro a
    rw [qlScoreLoop, qlTermScore_eq, if_neg (h t (List.mem_cons_self t ts))]
    show qlScoreLoop idx docID
      (a + Real.log (qlNum idx t docID / ((idx.getDocumentLength docID : ℝ) + 300))) ts = _
    rw [ih (fun u hu => h u (List.mem_cons_of_mem t hu))]
    have : qlSpecScore idx (t :: ts) docID =
        Real.log (qlNum idx t docID / ((idx.getDocumentLength docID : ℝ) + 300)) +
          qlSpecScore idx ts docID := by
      simp [qlSpecScore, qlNum]
    rw [this, add_assoc]

theorem qlScoreLoop_none {idx : Index} {docID t : String} {q : List String}
    (ht : t ∈ q) (hn : (idx.getTotalTokenCount : ℝ) = 0 ∨ qlNum idx t docID ≤ 0) :
    ∀ a : ℝ, qlScoreLoop idx docID a q = none := by
  induction q with
  | nil => cases ht
  | cons u us ih =>
    intro a
    rcases List.mem_cons.mp ht with rfl | ht'
    · rw [qlScoreLoop, qlTermScore_eq, if_pos hn]
    · rw [qlScoreLoop]
      cases hu : qlTermScore idx docID u
      · rfl
      · exact ih ht' _

theorem runQLQuery_eq_some {idx : Index} {q : List String} (h : qlDefined idx q) :
    runQLQuery idx q =
      some ⟨"QL", (unionDocs idx q).map (fun d => (d, qlSpecScore idx q d))⟩ := by
  rw [runQLQuery, optMapList_eq_some _ (fun d => (d, qlSpecScore idx q d))]
  · rfl
  · intro d hd
    have hterm : ∀ t ∈ q, ¬((idx.getTotalTokenCount : ℝ) = 0 ∨ qlNum idx t d ≤ 0) := by
      intro t ht
      obtain ⟨h1, h2⟩ := h d hd t ht
      rintro (hc | hc)
      · exact h1 hc
      · linarith
    rw [qlScoreLoop_some hterm 0, zero_add]
    rfl

theorem runQLQuery_eq_none {idx : Index} {q : List String} {d t : String}
    (hd : d ∈ unionDocs idx q) (ht : t ∈ q)
    (hn : (idx.getTotalTokenCount : ℝ) = 0 ∨ qlNum idx t d ≤ 0) :
    runQLQuery idx q = none := by
  rw [runQLQuery, optMapList_eq_none _ hd]
  · rfl
  · rw [qlScoreLoop_none ht hn 0]
    rfl

/-! Characterisation of `runBM25Query`. -/

theorem bm25Terms_eq (idx : Index) (bigK : ℝ) (docID t : String) :
    bm25Terms idx bigK docID t =
      if ((idx.getNumberOfDocuments : ℝ) - (idx.getTokenDocumentCount t : ℝ) + 0.5) /
          ((idx.getTokenDocumentCount t : ℝ) + 0.5) ≤ 0 then none
      else if bigK + (idx.getTokenFrequencyInDocument t docID : ℝ) = 0 then none
      else some (bm25SpecTerm1 idx t,
        ((1.8 + 1) * (idx.getTokenFrequencyInDocument t docID : ℝ)) /
          (bigK + (idx.getTokenFrequencyInDocument t docID : ℝ)),
        bm25SpecTerm3) := by
  have hden1 : ((idx.getTokenDocumentCount t : ℝ) + 0.5) ≠ 0 := by positivity
  have hden3 : ((5 : ℝ) + 1) ≠ 0 := by norm_num
  set r := ((idx.getNumberOfDocuments : ℝ) - (idx.getTokenDocumentCount t : ℝ) + 0.5) /
    ((idx.getTokenDocumentCount t : ℝ) + 0.5) with hr
  by_cases h1 : r ≤ 0
  · rw [if_pos h1]
    simp only [bm25Terms, pyDiv, pyLog, if_neg hden1, Option.bind_eq_bind,
      Option.some_bind, ← hr, if_pos h1]
    rfl
  · rw [if_neg h1]
    by_cases h2 : bigK + (idx.getTokenFrequencyInDocument t docID : ℝ) = 0
    · rw [if_pos h2]
      simp only [bm25Terms, pyDiv, pyLog, if_neg hden1, Option.bind_eq_bind,
        Option.some_bind, ← hr, if_neg h1, if_pos h2]
      rfl
    · rw [if_neg h2]
      simp only [bm25Terms, pyDiv, pyLog, if_neg hden1, Option.bind_eq_bind,
        Option.some_bind, ← hr, if_neg h1, if_neg h2, if_neg hden3]
      rw [bm25SpecTerm1, bm25SpecTerm3]
      rfl

theorem bm25ScoreLoop_some {idx : Index} {bigK : ℝ} {docID : String}
    (T1 T2 T3 : String → ℝ) {q : List String}
    (h : ∀ t ∈ q, bm25Terms idx bigK docID t = some (T1 t, T2 t, T3 t)) :
    ∀ a : ℝ, bm25ScoreLoop idx bigK docID a q =
      some (a + (q.map (fun t => if T1 t ≠ 0 ∧ T2 t ≠ 0 ∧ T3 t ≠ 0
        then T1 t * T2 t * T3 t else 0)).sum) := by
  induction q with
  | nil =>
    intro a
    simp [bm25ScoreLoop]
  | cons t ts ih =>
    intro a
    rw [bm25ScoreLoop, h t (List.mem_cons_self t ts)]
    dsimp only
    by_cases hg : T1 t ≠ 0 ∧ T2 t ≠ 0 ∧ T3 t ≠ 0
    · rw [if_pos hg, ih (fun u hu => h u (List.mem_cons_of_mem t hu)),
        List.map_cons, List.sum_cons, if_pos hg, add_assoc]
    · rw [if_neg hg, ih (fun u hu => h u (List.mem_cons_of_mem t hu)),
        List.map_cons, List.sum_cons, if_neg hg, zero_add]

theorem bm25ScoreLoop_none {idx : Index} {bigK : ℝ} {docID t : String}
    {q : List String} (ht : t ∈ q) (hn : bm25Terms idx bigK docID t = none) :
    ∀ a : ℝ, bm25ScoreLoop idx bigK docID a q = none := by
  induction q with
  | nil => cases ht
  | cons u us ih =>
    intro a
    rcases List.mem_cons.mp ht with rfl | ht'
    · rw [bm25ScoreLoop, hn]
    · rw [bm25ScoreLoop]
      rcases hu : bm25Terms idx bigK docID u with _ | ⟨t1, t2, t3⟩
      · rfl
      · dsimp only
        by_cases hg : t1 ≠ 0 ∧ t2 ≠ 0 ∧ t3 ≠ 0
        · rw [if_pos hg]
          exact ih ht' _
        · rw [if_neg hg]
          exact ih ht' _

theorem bm25SpecK_pos {idx : Index} {docID : String}
    (hdc : 0 < idx.getNumberOfDocuments) (htot : 0 < idx.getTotalTokenCount) :
    0 < bm25SpecK idx docID := by
  have havgpos : 0 < (idx.getTotalTokenCount : ℝ) / (idx.getNumberOfDocuments : ℝ) :=
    div_pos (by exact_mod_cast htot) (by exact_mod_cast hdc)
  have hlen : (0 : ℝ) ≤ (idx.getDocumentLength docID : ℝ) := Nat.cast_nonneg _
  have hratio : (0 : ℝ) ≤ (idx.getDocumentLength docID : ℝ) /
      ((idx.getTotalTokenCount : ℝ) / (idx.getNumberOfDocuments : ℝ)) :=
    div_nonneg hlen (le_of_lt havgpos)
  rw [bm25SpecK]
  nlinarith

theorem bm25DocScore_eq_some {idx : Index} {docID : String} {q : List String}
    (hdc : 0 < idx.getNumberOfDocuments) (htot : 0 < idx.getTotalTokenCount)
    (hn : ∀ t ∈ q, idx.getTokenDocumentCount t ≤ idx.getNumberOfDocuments) :
    bm25DocScore idx docID q = some (bm25SpecScore idx q docID) := by
  have hdc' : (idx.getNumberOfDocuments : ℝ) ≠ 0 :=
    ne_of_gt (by exact_mod_cast hdc)
  have htot' : (idx.getTotalTokenCount : ℝ) ≠ 0 :=
    ne_of_gt (by exact_mod_cast htot)
  have havg : (idx.getTotalTokenCount : ℝ) / (idx.getNumberOfDocuments : ℝ) ≠ 0 :=
    div_ne_zero htot' hdc'
  have hKpos : 0 < bm25SpecK idx docID := bm25SpecK_pos hdc htot
  simp only [bm25DocScore, Index.getAverageDocumentLength, pyDiv, if_neg hdc',
    if_neg havg, Option.bind_eq_bind, Option.some_bind]
  have hterms : ∀ t ∈ q, bm25Terms idx
      (1.8 * ((1 - 0.75) + 0.75 * ((idx.getDocumentLength docID : ℝ) /
        ((idx.getTotalTokenCount : ℝ) / (idx.getNumberOfDocuments : ℝ))))) docID t =
      some (bm25SpecTerm1 idx t, bm25SpecTerm2 idx t docID, bm25SpecTerm3) := by
    intro t ht
    rw [bm25Terms_eq]
    have hratio_pos : 0 < ((idx.getNumberOfDocuments : ℝ) -
        (idx.getTokenDocumentCount t : ℝ) + 0.5) /
        ((idx.getTokenDocumentCount t : ℝ) + 0.5) := by
      have hle : (idx.getTokenDocumentCount t : ℝ) ≤ (idx.getNumberOfDocuments : ℝ) := by
        exact_mod_cast hn t ht
      apply div_pos
      · linarith
      · positivity
    have hKf : bm25SpecK idx docID + (idx.getTokenFrequencyInDocument t docID : ℝ) ≠ 0 := by
      have := Nat.cast_nonneg (α := ℝ) (idx.getTokenFrequencyInDocument t docID)
      linarith
    rw [if_neg (not_le.mpr hratio_pos)]
    rw [show (1.8 * ((1 - 0.75) + 0.75 * ((idx.getDocumentLength docID : ℝ) /
        ((idx.getTotalTokenCount : ℝ) / (idx.getNumberOfDocuments : ℝ))))) =
      bm25SpecK idx docID from rfl]
    rw [if_neg hKf]
    rfl
  rw [bm25ScoreLoop_some (bm25SpecTerm1 idx) (fun t => bm25SpecTerm2 idx t docID)
    (fun _ => bm25SpecTerm3) hterms 0, zero_add]
  rfl

theorem bm25DocScore_none_of_dc {idx : Index} {docID : String} {q : List String}
    (hdc : (idx.getNumberOfDocuments : ℝ) = 0) : bm25DocScore idx docID q = none := by
  simp [bm25DocScore, Index.getAverageDocumentLength, pyDiv, hdc]

theorem bm25DocScore_none_of_total {idx : Index} {docID : String} {q : List String}
    (hdc : (idx.getNumberOfDocuments : ℝ) ≠ 0)
    (htot : (idx.getTotalTokenCount : ℝ) = 0) : bm25DocScore idx docID q = none := by
  simp [bm25DocScore, Index.getAverageDocumentLength, pyDiv, hdc, htot, zero_div]

theorem bm25DocScore_none_of_term {idx : Index} {docID t : String} {q : List String}
    (ht : t ∈ q) (hdc : (idx.getNumberOfDocuments : ℝ) ≠ 0)
    (htot : (idx.getTotalTokenCount : ℝ) ≠ 0)
    (hbad : idx.getNumberOfDocuments < idx.getTokenDocumentCount t) :
    bm25DocScore idx docID q = none := by
  have havg : (idx.getTotalTokenCount : ℝ) / (idx.getNumberOfDocuments : ℝ) ≠ 0 :=
    div_ne_zero htot hdc
  simp only [bm25DocScore, Index.getAverageDocumentLength, pyDiv, if_neg hdc,
    if_neg havg, Option.bind_eq_bind, Option.some_bind]
  apply bm25ScoreLoop_none ht
  rw [bm25Terms_eq]
  have hle : (idx.getNumberOfDocuments : ℝ) + 1 ≤ (idx.getTokenDocumentCount t : ℝ) := by
    exact_mod_cast hbad
  have : ((idx.getNumberOfDocuments : ℝ) - (idx.getTokenDocumentCount t : ℝ) + 0.5) /
      ((idx.getTokenDocumentCount t : ℝ) + 0.5) ≤ 0 := by
    apply div_nonpos_of_nonpos_of_nonneg
    · linarith
    · positivity
  rw [if_pos this]

theorem runQLQuery_nil_docs {idx : Index} {q : List String}
    (h : unionDocs idx q = []) : runQLQuery idx q = some ⟨"QL", []⟩ := by
  rw [runQLQuery, h]
  rfl

theorem runBM25Query_nil_docs {idx : Index} {q : List String}
    (h : unionDocs idx q = []) : runBM25Query idx q = some ⟨"BM25", []⟩ := by
  rw [runBM25Query, h]
  rfl

theorem runBM25Query_eq_some {idx : Index} {q : List String}
    (hdc : 0 < idx.getNumberOfDocuments) (htot : 0 < idx.getTotalTokenCount)
    (hn : ∀ t ∈ q, idx.getTokenDocumentCount t ≤ idx.getNumberOfDocuments) :
    runBM25Query idx q = some ⟨"BM25",
      (unionDocs idx q).map (fun d => (d, bm25SpecScore idx q d))⟩ := by
  rw [runBM25Query, optMapList_eq_some _ (fun d => (d, bm25SpecScore idx q d))]
  · rfl
  · intro d hd
    rw [bm25DocScore_eq_some hdc htot hn]
    rfl

theorem runBM25Query_eq_none {idx : Index} {q : List String} {d : String}
    (hd : d ∈ unionDocs idx q) (hfail : bm25DocScore idx d q = none) :
    runBM25Query idx q = none := by
  rw [runBM25Query, optMapList_eq_none _ hd]
  · rfl
  · rw [hfail]
    rfl

/-! The stable sort and the rank loop. -/

theorem mem_insertOrd {α : Type} (le : α → α → Bool) (x : α) :
    ∀ (l : List α) (y : α), y ∈ insertOrd le x l ↔ y = x ∨ y ∈ l := by
  intro l
  induction l with
  | nil => simp [insertOrd]
  | cons z zs ih =>
    intro y
    by_cases h : le x z
    · simp [insertOrd, h, List.mem_cons]
    · simp [insertOrd, h, List.mem_cons, ih]
      tauto

theorem perm_insertOrd {α : Type} (le : α → α → Bool) (x : α) :
    ∀ l : List α, (insertOrd le x l).Perm (x :: l) := by
  intro l
  induction l with
  | nil => simp [insertOrd]
  | cons z zs ih =>
    by_cases h : le x z
    · simp [insertOrd, h]
    · rw [insertOrd, if_neg (by simpa using h)]
      exact (ih.cons z).trans (List.Perm.swap x z zs)

theorem perm_sortOrd {α : Type} (le : α → α → Bool) :
    ∀ l : List α, (sortOrd le l).Perm l := by
  intro l
  induction l with
  | nil => exact List.Perm.refl []
  | cons x xs ih => exact (perm_insertOrd le x (sortOrd le xs)).trans (ih.cons x)

theorem pairwise_insertOrd {α : Type} {le : α → α → Bool}
    (htot : ∀ a b, le a b = true ∨ le b a = true)
    (htrans : ∀ a b c, le a b = true → le b c = true → le a c = true) (x : α) :
    ∀ l : List α, List.Pairwise (fun a b => le a b = true) l →
      List.Pairwise (fun a b => le a b = true) (insertOrd le x l) := by
  intro l
  induction l with
  | nil => simp [insertOrd]
  | cons z zs ih =>
    intro h
    obtain ⟨hhead, htail⟩ := List.pairwise_cons.mp h
    by_cases hle : le x z = true
    · rw [insertOrd, if_pos hle]
      refine List.Pairwise.cons ?_ h
      intro y hy
      rcases List.mem_cons.mp hy with rfl | hy'
      · exact hle
      · exact htrans x z y hle (hhead y hy')
    · rw [insertOrd, if_neg (by simpa using hle)]
      refine List.Pairwise.cons ?_ (ih htail)
      intro y hy
      rcases (mem_insertOrd le x zs y).mp hy with h'' | hy'
      · rw [h'']
        rcases htot x z with h' | h'
        · exact absurd h' hle
        · exact h'
      · exact hhead y hy'

theorem pairwise_sortOrd {α : Type} {le : α → α → Bool}
    (htot : ∀ a b, le a b = true ∨ le b a = true)
    (htrans : ∀ a b c, le a b = true → le b c = true → le a c = true) :
    ∀ l : List α, List.Pairwise (fun a b => le a b = true) (sortOrd le l) := by
  intro l
  induction l with
  | nil => simp [sortOrd]
  | cons x xs ih => exact pairwise_insertOrd htot htrans x _ ih

theorem rankFrom_map_pair :
    ∀ (l : List (String × ℝ)) (r : Nat),
      (rankFrom r l).map (fun row => (row.1, row.2.2)) = l := by
  intro l
  induction l with
  | nil => intro r; rfl
  | cons p rest ih =>
    intro r
    obtain ⟨d, s⟩ := p
    simp [rankFrom, ih]

theorem rankFrom_map_rank :
    ∀ (l : List (String × ℝ)) (r : Nat),
      (rankFrom r l).map (fun row => row.2.1) = List.range' r l.length := by
  intro l
  induction l with
  | nil => intro r; rfl
  | cons p rest ih =>
    intro r
    obtain ⟨d, s⟩ := p
    simp [rankFrom, ih, List.range'_succ]

theorem mem_rankFrom_proj {l : List (String × ℝ)} {r : Nat}
    {b : String × Nat × ℝ} (hb : b ∈ rankFrom r l) : (b.1, b.2.2) ∈ l := by
  have := List.mem_map_of_mem (fun row => (row.1, row.2.2)) hb
  rwa [rankFrom_map_pair] at this

theorem rankFrom_pairwise {S : (String × ℝ) → (String × ℝ) → Prop} :
    ∀ (l : List (String × ℝ)) (r : Nat), l.Pairwise S →
      (rankFrom r l).Pairwise (fun a b => S (a.1, a.2.2) (b.1, b.2.2)) := by
  intro l
  induction l with
  | nil => intro r _; exact List.Pairwise.nil
  | cons p rest ih =>
    intro r h
    obtain ⟨d, s⟩ := p
    obtain ⟨hhead, htail⟩ := List.pairwise_cons.mp h
    refine List.Pairwise.cons ?_ (ih (r + 1) htail)
    intro b hb
    exact hhead (b.1, b.2.2) (mem_rankFrom_proj hb)

/-! Token-count and stored-document facts of a built index. -/

theorem innerSum_upsert (inner : Postings) (docID : String) (i : Nat) :
    ((upsert inner docID [] (fun ps => ps ++ [i])).map (fun e => e.2.length)).sum =
      (inner.map (fun e => e.2.length)).sum + 1 := by
  induction inner with
  | nil => simp [upsert]
  | cons e rest ih =>
    obtain ⟨k', v⟩ := e
    by_cases h : k' = docID
    · simp [upsert, h]
      omega
    · simp only [upsert, if_neg h, List.map_cons, List.sum_cons, ih]
      omega

theorem structTotal_addToken (pi : InvIndex) (docID tok : String) (i : Nat) :
    structTotal (addToken pi docID tok i) = structTotal pi + 1 := by
  induction pi with
  | nil =>
    simp [addToken, upsert, structTotal, innerSum_upsert]
  | cons p rest ih =>
    obtain ⟨k', v⟩ := p
    by_cases h : k' = tok
    · simp only [addToken, upsert, if_pos h, structTotal, List.map_cons, List.sum_cons,
        innerSum_upsert]
      omega
    · simp only [addToken, upsert, if_neg h, structTotal, List.map_cons, List.sum_cons] at ih ⊢
      omega

theorem structTotal_fold (docID : String) :
    ∀ (l : List (Nat × String)) (pi : InvIndex),
      structTotal (l.foldl (fun acc p => addToken acc docID p.2 p.1) pi) =
        structTotal pi + l.length := by
  intro l
  induction l with
  | nil => intro pi; simp
  | cons p ps ih =>
    intro pi
    rw [List.foldl_cons, ih, structTotal_addToken, List.length_cons]
    omega

theorem structTotal_foldl_add :
    ∀ (docs : List Document) (idx : Index),
      structTotal ((docs.foldl Index.add idx).index) =
        structTotal idx.index + (docs.map (fun d => (pySplit d.text).length)).sum := by
  intro docs
  induction docs with
  | nil => intro idx; simp
  | cons d ds ih =>
    intro idx
    rw [List.foldl_cons, ih]
    have : (idx.add d).index = ((pySplit d.text).enum).foldl
        (fun pi p => addToken pi d.storyID p.2 p.1) idx.index := rfl
    rw [this, structTotal_fold, List.enum_length]
    simp
    omega

theorem getTotalTokenCount_eq_structTotal {idx : Index}
    (h : (keysOf idx.index).Nodup) : idx.getTotalTokenCount = structTotal idx.index := by
  rw [Index.getTotalTokenCount, structTotal]
  congr 1
  apply List.map_congr_left
  intro p hp
  rw [Index.getTotalTokenFrequency, alookup_self_of_nodup h p hp]

theorem documents_foldl_add :
    ∀ (docs : List Document) (idx : Index),
      (docs.foldl Index.add idx).documents =
        docs.foldl (fun m d => upsert m d.storyID d (fun _ => d)) idx.documents := by
  intro docs
  induction docs with
  | nil => intro idx; rfl
  | cons d ds ih =>
    intro idx
    rw [List.foldl_cons, List.foldl_cons, ih]
    rfl

theorem alookup_upsert_const {α : Type} (m : List (String × α)) (k : String)
    (dflt c : α) : alookup (upsert m k dflt (fun _ => c)) k = some c := by
  rw [alookup_upsert_self]

theorem alookup_foldl_docs_skip (k : String) :
    ∀ (docs : List Document), (∀ d ∈ docs, d.storyID ≠ k) →
      ∀ m, alookup (docs.foldl (fun m d => upsert m d.storyID d (fun _ => d)) m) k =
        alookup m k := by
  intro docs
  induction docs with
  | nil => intro _ m; rfl
  | cons d ds ih =>
    intro h m
    rw [List.foldl_cons, ih (fun e he => h e (List.mem_cons_of_mem d he))]
    exact alookup_upsert_other _ _ _ _ _ (fun e => h d (List.mem_cons_self d ds) e.symm)

theorem alookup_documents_buildIndex {docs : List Document}
    (hnd : (docs.map (fun d => d.storyID)).Nodup) :
    ∀ d ∈ docs, alookup (buildIndex docs).documents d.storyID = some d := by
  rw [buildIndex, documents_foldl_add]
  have aux : ∀ (l : List Document) (m : List (String × Document)),
      (l.map (fun d => d.storyID)).Nodup → ∀ d ∈ l,
        alookup (l.foldl (fun m d => upsert m d.storyID d (fun _ => d)) m) d.storyID =
          some d := by
    intro l
    induction l with
    | nil => intro m _ d hd; cases hd
    | cons d0 rest ih =>
      intro m hnd d hd
      simp only [List.map_cons, List.nodup_cons] at hnd
      rcases List.mem_cons.mp hd with rfl | hd'
      · rw [List.foldl_cons]
        rw [alookup_foldl_docs_skip d.storyID rest ?hne]
        · exact alookup_upsert_const _ _ _ _
        case hne =>
          intro e he hc
          exact hnd.1 (hc ▸ List.mem_map_of_mem (fun d => d.storyID) he)
      · rw [List.foldl_cons]
        exact ih _ hnd.2 d hd'
  exact aux docs Index.empty.documents hnd

theorem getDocumentLength_buildIndex {docs : List Document}
    (hnd : (docs.map (fun d => d.storyID)).Nodup) :
    ∀ d ∈ docs, (buildIndex docs).getDocumentLength d.storyID =
      (pySplit d.text).length := by
  intro d hd
  rw [Index.getDocumentLength, alookup_documents_buildIndex hnd d hd]

/-! Support lemmas for the claims. -/

theorem map_fst_pairs {β : Type} (f : String → β) :
    ∀ l : List String, (l.map (fun d => (d, f d))).map Prod.fst = l := by
  intro l
  induction l with
  | nil => rfl
  | cons x xs ih => simp [ih]

theorem alookup_map_pairs (f : String → ℝ) :
    ∀ (l : List String) (k : String),
      alookup (l.map (fun d => (d, f d))) k = if k ∈ l then some (f k) else none := by
  intro l
  induction l with
  | nil => intro k; simp [alookup]
  | cons x xs ih =>
    intro k
    rw [List.map_cons, alookup_cons]
    by_cases h : x = k
    · subst h
      simp
    · rw [if_neg h, ih]
      by_cases h2 : k ∈ xs
      · rw [if_pos h2, if_pos (List.mem_cons_of_mem x h2)]
      · rw [if_neg h2, if_neg (by
          intro hc
          rcases List.mem_cons.mp hc with rfl | hc'
          · exact h rfl
          · exact h2 hc')]

theorem qlDefined_of_terms {idx : Index} {q : List String}
    (htot : 0 < idx.getTotalTokenCount)
    (hterms : ∀ t ∈ q, 0 < idx.getTotalTokenFrequency t) : qlDefined idx q := by
  intro d _ t ht
  have htotR : (0 : ℝ) < (idx.getTotalTokenCount : ℝ) := by exact_mod_cast htot
  refine ⟨ne_of_gt htotR, ?_⟩
  have hctf : (0 : ℝ) < (idx.getTotalTokenFrequency t : ℝ) := by
    exact_mod_cast hterms t ht
  have hf : (0 : ℝ) ≤ (idx.getTokenFrequencyInDocument t d : ℝ) := Nat.cast_nonneg _
  have hmul : 0 < 300 * ((idx.getTotalTokenFrequency t : ℝ) /
      (idx.getTotalTokenCount : ℝ)) := by positivity
  rw [qlNum]
  linarith

theorem unionDocs_congr {idx : Index} {q q' : List String}
    (hmem : ∀ t, t ∈ q ↔ t ∈ q') :
    ∀ d, d ∈ unionDocs idx q ↔ d ∈ unionDocs idx q' := by
  intro d
  rw [mem_unionDocs, mem_unionDocs]
  constructor
  · rintro ⟨t, ht, h⟩
    exact ⟨t, (hmem t).mp ht, h⟩
  · rintro ⟨t, ht, h⟩
    exact ⟨t, (hmem t).mpr ht, h⟩

theorem qlDefined_congr {idx : Index} {q q' : List String}
    (hmem : ∀ t, t ∈ q ↔ t ∈ q') : qlDefined idx q ↔ qlDefined idx q' := by
  constructor
  · intro h d hd t ht
    exact h d ((unionDocs_congr hmem d).mpr hd) t ((hmem t).mpr ht)
  · intro h d hd t ht
    exact h d ((unionDocs_congr hmem d).mp hd) t ((hmem t).mp ht)

theorem bm25Defined_congr {idx : Index} {q q' : List String}
    (hmem : ∀ t, t ∈ q ↔ t ∈ q') : bm25Defined idx q ↔ bm25Defined idx q' := by
  have hnil : unionDocs idx q = [] ↔ unionDocs idx q' = [] := by
    rw [List.eq_nil_iff_forall_not_mem, List.eq_nil_iff_forall_not_mem]
    constructor
    · intro h d hd
      exact h d ((unionDocs_congr hmem d).mpr hd)
    · intro h d hd
      exact h d ((unionDocs_congr hmem d).mp hd)
  rw [bm25Defined, bm25Defined]
  constructor
  · rintro (h | ⟨h1, h2, h3⟩)
    · exact Or.inl (hnil.mp h)
    · exact Or.inr ⟨h1, h2, fun t ht => h3 t ((hmem t).mpr ht)⟩
  · rintro (h | ⟨h1, h2, h3⟩)
    · exact Or.inl (hnil.mpr h)
    · exact Or.inr ⟨h1, h2, fun t ht => h3 t ((hmem t).mp ht)⟩

theorem runQLQuery_eq_none_of_not_defined {idx : Index} {q : List String}
    (h : ¬ qlDefined idx q) : runQLQuery idx q = none := by
  rw [qlDefined] at h
  push_neg at h
  obtain ⟨d, hd, t, ht, hcond⟩ := h
  apply runQLQuery_eq_none hd ht
  by_cases h0 : (idx.getTotalTokenCount : ℝ) = 0
  · exact Or.inl h0
  · exact Or.inr (hcond h0)

theorem runBM25Query_eq_some_of_defined {idx : Index} {q : List String}
    (h : bm25Defined idx q) :
    runBM25Query idx q = some ⟨"BM25",
      (unionDocs idx q).map (fun d => (d, bm25SpecScore idx q d))⟩ := by
  rcases h with hnil | ⟨hdc, htot, hn⟩
  · rw [runBM25Query_nil_docs hnil, hnil]
    rfl
  · exact runBM25Query_eq_some hdc htot hn

theorem runBM25Query_eq_none_of_not_defined {idx : Index} {q : List String}
    (h : ¬ bm25Defined idx q) : runBM25Query idx q = none := by
  rw [bm25Defined] at h
  push_neg at h
  obtain ⟨hne, hrest⟩ := h
  obtain ⟨d0, hd0⟩ := List.exists_mem_of_ne_nil _ hne
  by_cases hdc : (idx.getNumberOfDocuments : ℝ) = 0
  · exact runBM25Query_eq_none hd0 (bm25DocScore_none_of_dc hdc)
  · by_cases htot0 : (idx.getTotalTokenCount : ℝ) = 0
    · exact runBM25Query_eq_none hd0 (bm25DocScore_none_of_total hdc htot0)
    · have hdcN : 0 < idx.getNumberOfDocuments :=
        Nat.pos_of_ne_zero (fun e => hdc (by exact_mod_cast congrArg Nat.cast e))
      have htotN : 0 < idx.getTotalTokenCount :=
        Nat.pos_of_ne_zero (fun e => htot0 (by exact_mod_cast congrArg Nat.cast e))
      have := hrest hdcN htotN
      push_neg at this
      obtain ⟨t, ht, hbad⟩ := this
      exact runBM25Query_eq_none hd0
        (bm25DocScore_none_of_term ht hdc htot0 hbad)

theorem qlSpecScore_perm {idx : Index} {q q' : List String} {d : String}
    (h : q.Perm q') : qlSpecScore idx q d = qlSpecScore idx q' d :=
  (h.map _).sum_eq

theorem bm25SpecScore_perm {idx : Index} {q q' : List String} {d : String}
    (h : q.Perm q') : bm25SpecScore idx q d = bm25SpecScore idx q' d :=
  (h.map _).sum_eq

theorem qlSpecScore_cons (idx : Index) (t : String) (q : List String) (d : String) :
    qlSpecScore idx (t :: q) d =
      Real.log (qlNum idx t d / ((idx.getDocumentLength d : ℝ) + 300)) +
        qlSpecScore idx q d := by
  simp [qlSpecScore, qlNum]

theorem bm25SpecScore_cons (idx : Index) (t : String) (q : List String) (d : String) :
    bm25SpecScore idx (t :: q) d =
      bm25SpecContribution idx t d + bm25SpecScore idx q d := by
  simp [bm25SpecScore]

theorem mem_cons_iff_of_mem {t : String} {q : List String} (ht : t ∈ q) :
    ∀ u, u ∈ (t :: q) ↔ u ∈ q := by
  intro u
  constructor
  · intro h
    rcases List.mem_cons.mp h with rfl | h'
    · exact ht
    · exact h'
  · exact List.mem_cons_of_mem t

/-! The claims. -/

/-- C10: on an empty query term list each of the four retrieval models returns
a result collection with no entries (and QL/BM25 return it without raising). -/
theorem c10_empty_query (idx : Index) :
    (runANDQuery idx []).results = [] ∧ (runORQuery idx []).results = [] ∧
      runQLQuery idx [] = some ⟨"QL", []⟩ ∧ runBM25Query idx [] = some ⟨"BM25", []⟩ :=
  ⟨rfl, rfl, rfl, rfl⟩

theorem unionDocs_buildIndex_nil : ∀ q : List String, unionDocs (buildIndex []) q = [] := by
  intro q
  induction q with
  | nil => rfl
  | cons w ws ih => exact ih

/-- C6 counterexample: on the index of zero documents, `runQLQuery` and
`runBM25Query` do not raise a division-by-zero error (`none` in this
embedding); both return successfully with an empty result collection. -/
theorem c6_counterexample :
    (buildIndex []).getNumberOfDocuments = 0 ∧
      runQLQuery (buildIndex []) ["a"] = some ⟨"QL", []⟩ ∧
      runBM25Query (buildIndex []) ["a"] = some ⟨"BM25", []⟩ :=
  ⟨rfl, rfl, rfl⟩

/-- C6 amended: invoking `runQLQuery` or `runBM25Query` on an index containing
zero documents returns successfully with an empty result collection for every
query term list: the division by zero inside `getAverageDocumentLength` (and
the one on `totalTokenCount`) is never reached because the candidate document
set is empty, so the per-document loop never runs. -/
theorem c6_empty_corpus_amended (q : List String) :
    (buildIndex []).getNumberOfDocuments = 0 ∧
      runQLQuery (buildIndex []) q = some ⟨"QL", []⟩ ∧
      runBM25Query (buildIndex []) q = some ⟨"BM25", []⟩ :=
  ⟨rfl, runQLQuery_nil_docs (unionDocs_buildIndex_nil q),
    runBM25Query_nil_docs (unionDocs_buildIndex_nil q)⟩

/-- C7: evaluating the dispatch-and-output phase of `runQueries` at a query
list whose first query has the unrecognised tag `XX` followed by a recognised
`AND` query.  The dispatch loop appends no result for `XX`, so the output loop,
which indexes the results list by the position in the full query list, pairs
the `AND` result with the wrong query name and then raises `IndexError`
(`none` here) — not the silent per-query no-op the claim describes. -/
theorem c7_dispatch_code_eval :
    runQueries (buildIndex [⟨"d1", "a"⟩])
      [⟨"XX", "q1", ["a"]⟩, ⟨"AND", "q2", ["a"]⟩] = none := rfl

/-- C3: `runANDQuery` scores every result 1, returns exactly the documents
contained in every query term's posting list, and returns nothing when some
query term is absent from the index. -/
theorem c3_and_model (idx : Index) (q : List String) (hq : q ≠ []) :
    (∀ r ∈ (runANDQuery idx q).results, r.2 = 1) ∧
      (∀ d : String, (∃ s, (d, s) ∈ (runANDQuery idx q).results) ↔
        ∀ t ∈ q, d ∈ idx.getDocumentIDsForToken t) ∧
      ((∃ t ∈ q, alookup idx.index t = none) → (runANDQuery idx q).results = []) := by
  obtain ⟨w, ws, rfl⟩ := List.exists_cons_of_ne_nil hq
  refine ⟨?_, ?_, ?_⟩
  · intro r hr
    simp only [runANDQuery, List.mem_map] at hr
    obtain ⟨d, _, rfl⟩ := hr
    rfl
  · intro d
    constructor
    · rintro ⟨s, hmem⟩
      obtain ⟨x, hx, he⟩ := List.mem_map.mp hmem
      have hxd : x = d := congrArg Prod.fst he
      subst hxd
      obtain ⟨h1, h2⟩ := mem_andDocs.mp hx
      intro t ht
      rcases List.mem_cons.mp ht with rfl | ht'
      · exact h1
      · exact h2 t ht'
    · intro hall
      refine ⟨1, List.mem_map_of_mem _ ?_⟩
      exact mem_andDocs.mpr ⟨hall w (List.mem_cons_self w ws),
        fun t ht => hall t (List.mem_cons_of_mem w ht)⟩
  · rintro ⟨t, ht, habs⟩
    have hdocs : idx.getDocumentIDsForToken t = [] := by
      rw [Index.getDocumentIDsForToken, habs]
    have hnil : andDocs idx (w :: ws) = [] := by
      rw [List.eq_nil_iff_forall_not_mem]
      intro d hd
      obtain ⟨h1, h2⟩ := mem_andDocs.mp hd
      rcases List.mem_cons.mp ht with rfl | ht'
      · rw [hdocs] at h1
        cases h1
      · have := h2 t ht'
        rw [hdocs] at this
        cases this
    simp [runANDQuery, hnil]

/-- C3 witness: a two-term query whose second term is absent yields no
results. -/
theorem c3_and_model_witness :
    (runANDQuery (buildIndex [⟨"d1", "a"⟩]) ["a", "b"]).results = [] :=
  (c3_and_model (buildIndex [⟨"d1", "a"⟩]) ["a", "b"] (by decide)).2.2
    ⟨"b", by decide, by decide⟩

/-- C9: for an index built from documents with pairwise-distinct IDs, the
total token count equals the sum of the document lengths of the added
documents. -/
theorem c9_token_count (docs : List Document)
    (hnd : (docs.map (fun d => d.storyID)).Nodup) :
    (buildIndex docs).getTotalTokenCount =
      (docs.map (fun d => (buildIndex docs).getDocumentLength d.storyID)).sum := by
  rw [getTotalTokenCount_eq_structTotal (indexWF_buildIndex docs).outerNodup]
  have h1 : structTotal (buildIndex docs).index =
      (docs.map (fun d => (pySplit d.text).length)).sum := by
    rw [buildIndex, structTotal_foldl_add]
    simp [Index.empty, structTotal]
  rw [h1]
  congr 1
  apply List.map_congr_left
  intro d hd
  exact (getDocumentLength_buildIndex hnd d hd).symm

/-- C9 witness: the two-document corpus of the spec's worked example. -/
theorem c9_token_count_witness :
    (buildIndex [⟨"d1", "cat dog cat"⟩, ⟨"d2", "dog dog"⟩]).getTotalTokenCount =
      (([⟨"d1", "cat dog cat"⟩, ⟨"d2", "dog dog"⟩] : List Document).map
        (fun d => (buildIndex [⟨"d1", "cat dog cat"⟩, ⟨"d2", "dog dog"⟩]).getDocumentLength
          d.storyID)).sum :=
  c9_token_count [⟨"d1", "cat dog cat"⟩, ⟨"d2", "dog dog"⟩] (by decide)

/-- C1 counterexample: with the one-document corpus `d1 = "a"` the total token
count is positive and the query `["a", "b"]` is non-empty with candidate
`d1`, yet `runQLQuery` raises (`none`): the absent term `"b"` has collection
frequency 0, so its numerator is 0 and `math.log 0` is a domain error — no
candidate document is assigned a score, contradicting the claim. -/
theorem c1_counterexample :
    0 < (buildIndex [⟨"d1", "a"⟩]).getTotalTokenCount ∧
      "d1" ∈ unionDocs (buildIndex [⟨"d1", "a"⟩]) ["a", "b"] ∧
      runQLQuery (buildIndex [⟨"d1", "a"⟩]) ["a", "b"] = none := by
  refine ⟨by decide, by decide, ?_⟩
  apply runQLQuery_eq_none (d := "d1") (t := "b") (by decide) (by decide)
  right
  have h1 : (buildIndex [⟨"d1", "a"⟩]).getTokenFrequencyInDocument "b" "d1" = 0 := by
    decide
  have h2 : (buildIndex [⟨"d1", "a"⟩]).getTotalTokenFrequency "b" = 0 := by decide
  rw [qlNum, h1, h2]
  norm_num

/-- C1 amended: for every index with a positive total token count and every
non-empty query term list all of whose terms occur in the index (positive
collection frequency), `runQLQuery` succeeds and assigns each candidate
document `d` the score `Σ over query term occurrences of
log((tf(t,d) + 300·(ctf(t)/totalTokenCount)) / (len(d) + 300))`. -/
theorem c1_ql_scoring_amended (idx : Index) (q : List String) (_hq : q ≠ [])
    (htot : 0 < idx.getTotalTokenCount)
    (hterms : ∀ t ∈ q, 0 < idx.getTotalTokenFrequency t) :
    runQLQuery idx q = some ⟨"QL",
      (unionDocs idx q).map (fun d => (d, qlSpecScore idx q d))⟩ :=
  runQLQuery_eq_some (qlDefined_of_terms htot hterms)

/-- C1 witness: the amended theorem applied at the one-document corpus
`d1 = "a"` and the query `["a"]`. -/
theorem c1_ql_scoring_witness :
    runQLQuery (buildIndex [⟨"d1", "a"⟩]) ["a"] = some ⟨"QL",
      (unionDocs (buildIndex [⟨"d1", "a"⟩]) ["a"]).map
        (fun d => (d, qlSpecScore (buildIndex [⟨"d1", "a"⟩]) ["a"] d))⟩ :=
  c1_ql_scoring_amended (buildIndex [⟨"d1", "a"⟩]) ["a"] (by decide) (by decide)
    (by decide)

/-- C2: on an index built from a non-empty corpus, `runBM25Query` (k1 = 1.8,
k2 = 5, b = 0.75, qf = 1) assigns each candidate document the sum of the
guarded `term1·term2·term3` contributions (`K` computed once per document),
and the skip of zero factors is behaviourally identical to always adding the
product. -/
theorem c2_bm25_scoring (docs : List Document) (q : List String)
    (hdocs : docs ≠ []) (_hq : q ≠ []) :
    runBM25Query (buildIndex docs) q = some ⟨"BM25",
      (unionDocs (buildIndex docs) q).map
        (fun d => (d, bm25SpecScore (buildIndex docs) q d))⟩ ∧
    ∀ d : String, bm25SpecScore (buildIndex docs) q d =
      (q.map (fun t => bm25SpecTerm1 (buildIndex docs) t *
        bm25SpecTerm2 (buildIndex docs) t d * bm25SpecTerm3)).sum := by
  constructor
  · by_cases hc : unionDocs (buildIndex docs) q = []
    · rw [runBM25Query_nil_docs hc, hc]
      rfl
    · obtain ⟨d0, hd0⟩ := List.exists_mem_of_ne_nil _ hc
      obtain ⟨t0, _, hd0t⟩ := mem_unionDocs.mp hd0
      have hdocsne : (buildIndex docs).getDocumentIDsForToken t0 ≠ [] := by
        intro h
        rw [h] at hd0t
        cases hd0t
      have htot := total_pos_of_docsFor_ne_nil (indexWF_buildIndex docs) hdocsne
      have hdc : 0 < (buildIndex docs).getNumberOfDocuments := by
        rw [Index.getNumberOfDocuments, docCount_buildIndex]
        exact List.length_pos.mpr hdocs
      exact runBM25Query_eq_some hdc htot
        (fun t _ => tokenDocCount_le_docCount (indexWF_buildIndex docs) t)
  · intro d
    rw [bm25SpecScore]
    congr 1
    apply List.map_congr_left
    intro t _
    rw [bm25SpecContribution]
    by_cases hg : bm25SpecTerm1 (buildIndex docs) t ≠ 0 ∧
        bm25SpecTerm2 (buildIndex docs) t d ≠ 0 ∧ bm25SpecTerm3 ≠ 0
    · rw [if_pos hg]
    · rw [if_neg hg]
      have hz : bm25SpecTerm1 (buildIndex docs) t = 0 ∨
          bm25SpecTerm2 (buildIndex docs) t d = 0 ∨ bm25SpecTerm3 = 0 := by
        tauto
      rcases hz with h | h | h <;> simp [h]

/-- C2 witness: the scoring equation at the one-document corpus `d1 = "a"`
and the query `["a"]`. -/
theorem c2_bm25_scoring_witness :
    runBM25Query (buildIndex [⟨"d1", "a"⟩]) ["a"] = some ⟨"BM25",
      (unionDocs (buildIndex [⟨"d1", "a"⟩]) ["a"]).map
        (fun d => (d, bm25SpecScore (buildIndex [⟨"d1", "a"⟩]) ["a"] d))⟩ :=
  (c2_bm25_scoring [⟨"d1", "a"⟩] ["a"] (List.cons_ne_nil _ _) (by decide)).1

/-- C4 counterexample: on the corpus `d2 = "b"`, the OR document set for the
query `["b", "c"]` is `{d2}` but `runQLQuery` raises (`none`) because the
absent term `"c"` drives `math.log` to a domain error, so QL produces no
document set at all — the three models do not agree as claimed. -/
theorem c4_counterexample :
    (runORQuery (buildIndex [⟨"d2", "b"⟩]) ["b", "c"]).results.map Prod.fst = ["d2"] ∧
      runQLQuery (buildIndex [⟨"d2", "b"⟩]) ["b", "c"] = none := by
  refine ⟨rfl, ?_⟩
  apply runQLQuery_eq_none (d := "d2") (t := "c") (by decide) (by decide)
  right
  have h1 : (buildIndex [⟨"d2", "b"⟩]).getTokenFrequencyInDocument "c" "d2" = 0 := by
    decide
  have h2 : (buildIndex [⟨"d2", "b"⟩]).getTotalTokenFrequency "c" = 0 := by decide
  rw [qlNum, h1, h2]
  norm_num

/-- C4 amended: on a built index, for a non-empty query all of whose terms
occur in the index, OR, QL and BM25 produce the same candidate document set —
the documents containing at least one query term — with OR assigning score 1;
and AND's result set is a subset of OR's for every index and query. -/
theorem c4_candidate_agreement_amended (docs : List Document) (q : List String)
    (hq : q ≠ [])
    (hterms : ∀ t ∈ q, 0 < (buildIndex docs).getTotalTokenFrequency t) :
    ∃ rQL rBM : QueryResults,
      runQLQuery (buildIndex docs) q = some rQL ∧
      runBM25Query (buildIndex docs) q = some rBM ∧
      rQL.results.map Prod.fst = unionDocs (buildIndex docs) q ∧
      rBM.results.map Prod.fst = unionDocs (buildIndex docs) q ∧
      (runORQuery (buildIndex docs) q).results.map Prod.fst =
        unionDocs (buildIndex docs) q ∧
      (∀ d : String, d ∈ unionDocs (buildIndex docs) q ↔
        ∃ t ∈ q, d ∈ (buildIndex docs).getDocumentIDsForToken t) ∧
      (∀ r ∈ (runORQuery (buildIndex docs) q).results, r.2 = 1) ∧
      (∀ (idx : Index) (qw : List String) (d : String),
        d ∈ (runANDQuery idx qw).results.map Prod.fst →
          d ∈ (runORQuery idx qw).results.map Prod.fst) := by
  obtain ⟨t0, ts, rfl⟩ := List.exists_cons_of_ne_nil hq
  have htot : 0 < (buildIndex docs).getTotalTokenCount :=
    lt_of_lt_of_le (hterms t0 (List.mem_cons_self t0 ts))
      (getTotalTokenFrequency_le_total _ t0)
  have hdc : 0 < (buildIndex docs).getNumberOfDocuments :=
    docCount_pos_of_total_pos docs htot
  refine ⟨_, _, runQLQuery_eq_some (qlDefined_of_terms htot hterms),
    runBM25Query_eq_some hdc htot
      (fun t _ => tokenDocCount_le_docCount (indexWF_buildIndex docs) t),
    map_fst_pairs _ _, map_fst_pairs _ _, map_fst_pairs _ _,
    fun d => mem_unionDocs, ?_, ?_⟩
  · intro r hr
    simp only [runORQuery, List.mem_map] at hr
    obtain ⟨d, _, rfl⟩ := hr
    rfl
  · intro idx qw d hd
    rw [runANDQuery] at hd
    rw [runORQuery]
    rw [map_fst_pairs] at hd
    rw [map_fst_pairs]
    rcases qw with _ | ⟨w, ws⟩
    · cases hd
    · obtain ⟨h1, _⟩ := mem_andDocs.mp hd
      exact mem_unionDocs.mpr ⟨w, List.mem_cons_self w ws, h1⟩

/-- C4 witness: the OR candidate-set equation extracted from the amended
theorem at the one-document corpus `d1 = "a"` and the query `["a"]`. -/
theorem c4_candidate_agreement_witness :
    (runORQuery (buildIndex [⟨"d1", "a"⟩]) ["a"]).results.map Prod.fst =
      unionDocs (buildIndex [⟨"d1", "a"⟩]) ["a"] := by
  obtain ⟨rQL, rBM, hQL, hBM, hQLd, hBMd, hOR, hmem, hsc, hsub⟩ :=
    c4_candidate_agreement_amended [⟨"d1", "a"⟩] ["a"] (by decide) (by decide)
  exact hOR

/-- C5: `getFinalResults` orders ascending by document ID for AND/OR and
descending by score for QL/BM25, assigns ranks 1..N in sorted order, and its
rows are a permutation of the raw results. -/
theorem c5_ranking (qr : QueryResults) :
    ((qr.method = "AND" ∨ qr.method = "OR") →
      qr.getFinalResults.Pairwise (fun a b => a.1 ≤ b.1)) ∧
    ((qr.method = "QL" ∨ qr.method = "BM25") →
      qr.getFinalResults.Pairwise (fun a b => b.2.2 ≤ a.2.2)) ∧
    qr.getFinalResults.map (fun row => row.2.1) = List.range' 1 qr.results.length ∧
    (qr.getFinalResults.map (fun row => (row.1, row.2.2))).Perm qr.results := by
  by_cases hm : qr.method = "AND" ∨ qr.method = "OR"
  · simp only [QueryResults.getFinalResults, if_pos hm]
    refine ⟨?_, ?_, ?_, ?_⟩
    · intro _
      have htot : ∀ a b : String × ℝ,
          (decide (a.1 ≤ b.1)) = true ∨ (decide (b.1 ≤ a.1)) = true := by
        intro a b
        rcases le_total a.1 b.1 with h | h
        · exact Or.inl (decide_eq_true h)
        · exact Or.inr (decide_eq_true h)
      have htrans : ∀ a b c : String × ℝ, (decide (a.1 ≤ b.1)) = true →
          (decide (b.1 ≤ c.1)) = true → (decide (a.1 ≤ c.1)) = true := by
        intro a b c h1 h2
        exact decide_eq_true (le_trans (of_decide_eq_true h1) (of_decide_eq_true h2))
      have hp := pairwise_sortOrd htot htrans qr.results
      have hp2 : (sortOrd (fun a b : String × ℝ => decide (a.1 ≤ b.1))
          qr.results).Pairwise (fun a b => a.1 ≤ b.1) :=
        hp.imp (fun h => of_decide_eq_true h)
      exact rankFrom_pairwise (S := fun p p' => p.1 ≤ p'.1) _ 1 hp2
    · intro h2
      rcases hm with h1 | h1 <;> rcases h2 with h3 | h3 <;> rw [h1] at h3 <;>
        exact absurd h3 (by decide)
    · rw [rankFrom_map_rank, (perm_sortOrd _ qr.results).length_eq]
    · rw [rankFrom_map_pair]
      exact perm_sortOrd _ qr.results
  · simp only [QueryResults.getFinalResults, if_neg hm]
    refine ⟨fun h2 => absurd h2 hm, ?_, ?_, ?_⟩
    · intro _
      have htot : ∀ a b : String × ℝ,
          (decide (b.2 ≤ a.2)) = true ∨ (decide (a.2 ≤ b.2)) = true := by
        intro a b
        rcases le_total b.2 a.2 with h | h
        · exact Or.inl (decide_eq_true h)
        · exact Or.inr (decide_eq_true h)
      have htrans : ∀ a b c : String × ℝ, (decide (b.2 ≤ a.2)) = true →
          (decide (c.2 ≤ b.2)) = true → (decide (c.2 ≤ a.2)) = true := by
        intro a b c h1 h2
        exact decide_eq_true (le_trans (of_decide_eq_true h2) (of_decide_eq_true h1))
      have hp := pairwise_sortOrd htot htrans qr.results
      have hp2 : (sortOrd (fun a b : String × ℝ => decide (b.2 ≤ a.2))
          qr.results).Pairwise (fun a b => b.2 ≤ a.2) :=
        hp.imp (fun h => of_decide_eq_true h)
      exact rankFrom_pairwise (S := fun p p' => p'.2 ≤ p.2) _ 1 hp2
    · rw [rankFrom_map_rank, (perm_sortOrd _ qr.results).length_eq]
    · rw [rankFrom_map_pair]
      exact perm_sortOrd _ qr.results

/-- C5 witness: the AND branch of the ranking theorem at a concrete
two-row collection. -/
theorem c5_ranking_witness :
    (QueryResults.getFinalResults ⟨"AND", [("d2", 1), ("d1", 1)]⟩).Pairwise
      (fun a b => a.1 ≤ b.1) :=
  (c5_ranking ⟨"AND", [("d2", 1), ("d1", 1)]⟩).1 (Or.inl rfl)

/-- C8: permuting the query terms changes neither the QL nor the BM25 score
assigned to any document (including whether the query raises), and duplicating
a term that already occurs in the query adds that term's per-occurrence
contribution a second time to each candidate document's score. -/
theorem c8_perm_and_repeat (idx : Index) (q q' : List String) (hperm : q.Perm q') :
    (∀ d, qlAssigned idx q d = qlAssigned idx q' d) ∧
    (∀ d, bm25Assigned idx q d = bm25Assigned idx q' d) ∧
    (∀ t ∈ q, ∀ d, qlAssigned idx (t :: q) d =
      (qlAssigned idx q d).map (Option.map (fun s =>
        Real.log (qlNum idx t d / ((idx.getDocumentLength d : ℝ) + 300)) + s))) ∧
    (∀ t ∈ q, ∀ d, bm25Assigned idx (t :: q) d =
      (bm25Assigned idx q d).map (Option.map (fun s =>
        bm25SpecContribution idx t d + s))) := by
  have hmemP : ∀ t, t ∈ q ↔ t ∈ q' := fun t => hperm.mem_iff
  refine ⟨?_, ?_, ?_, ?_⟩
  · intro d
    by_cases h : qlDefined idx q
    · have h' : qlDefined idx q' := (qlDefined_congr hmemP).mp h
      rw [qlAssigned, qlAssigned, runQLQuery_eq_some h, runQLQuery_eq_some h']
      simp only [Option.map_some']
      rw [alookup_map_pairs, alookup_map_pairs]
      by_cases hd : d ∈ unionDocs idx q
      · rw [if_pos hd, if_pos ((unionDocs_congr hmemP d).mp hd),
          qlSpecScore_perm hperm]
      · rw [if_neg hd, if_neg (fun hc => hd ((unionDocs_congr hmemP d).mpr hc))]
    · have h' : ¬ qlDefined idx q' := fun hc => h ((qlDefined_congr hmemP).mpr hc)
      rw [qlAssigned, qlAssigned, runQLQuery_eq_none_of_not_defined h,
        runQLQuery_eq_none_of_not_defined h']
  · intro d
    by_cases h : bm25Defined idx q
    · have h' : bm25Defined idx q' := (bm25Defined_congr hmemP).mp h
      rw [bm25Assigned, bm25Assigned, runBM25Query_eq_some_of_defined h,
        runBM25Query_eq_some_of_defined h']
      simp only [Option.map_some']
      rw [alookup_map_pairs, alookup_map_pairs]
      by_cases hd : d ∈ unionDocs idx q
      · rw [if_pos hd, if_pos ((unionDocs_congr hmemP d).mp hd),
          bm25SpecScore_perm hperm]
      · rw [if_neg hd, if_neg (fun hc => hd ((unionDocs_congr hmemP d).mpr hc))]
    · have h' : ¬ bm25Defined idx q' := fun hc => h ((bm25Defined_congr hmemP).mpr hc)
      rw [bm25Assigned, bm25Assigned, runBM25Query_eq_none_of_not_defined h,
        runBM25Query_eq_none_of_not_defined h']
  · intro t ht d
    have hmemC := mem_cons_iff_of_mem ht
    by_cases h : qlDefined idx q
    · have h2 : qlDefined idx (t :: q) := (qlDefined_congr hmemC).mpr h
      rw [qlAssigned, qlAssigned, runQLQuery_eq_some h, runQLQuery_eq_some h2]
      simp only [Option.map_some']
      rw [alookup_map_pairs, alookup_map_pairs]
      by_cases hd : d ∈ unionDocs idx q
      · rw [if_pos hd, if_pos ((unionDocs_congr hmemC d).mpr hd), qlSpecScore_cons]
        rfl
      · rw [if_neg hd, if_neg (fun hc => hd ((unionDocs_congr hmemC d).mp hc))]
        rfl
    · have h2 : ¬ qlDefined idx (t :: q) := fun hc => h ((qlDefined_congr hmemC).mp hc)
      rw [qlAssigned, qlAssigned, runQLQuery_eq_none_of_not_defined h,
        runQLQuery_eq_none_of_not_defined h2]
      rfl
  · intro t ht d
    have hmemC := mem_cons_iff_of_mem ht
    by_cases h : bm25Defined idx q
    · have h2 : bm25Defined idx (t :: q) := (bm25Defined_congr hmemC).mpr h
      rw [bm25Assigned, bm25Assigned, runBM25Query_eq_some_of_defined h,
        runBM25Query_eq_some_of_defined h2]
      simp only [Option.map_some']
      rw [alookup_map_pairs, alookup_map_pairs]
      by_cases hd : d ∈ unionDocs idx q
      · rw [if_pos hd, if_pos ((unionDocs_congr hmemC d).mpr hd), bm25SpecScore_cons]
        rfl
      · rw [if_neg hd, if_neg (fun hc => hd ((unionDocs_congr hmemC d).mp hc))]
        rfl
    · have h2 : ¬ bm25Defined idx (t :: q) :=
        fun hc => h ((bm25Defined_congr hmemC).mp hc)
      rw [bm25Assigned, bm25Assigned, runBM25Query_eq_none_of_not_defined h,
        runBM25Query_eq_none_of_not_defined h2]
      rfl

/-- C8 witness: swapping the two terms of `["a", "b"]` leaves `d1`'s assigned
QL score unchanged on the corpus `d1 = "a b"`. -/
theorem c8_perm_and_repeat_witness :
    qlAssigned (buildIndex [⟨"d1", "a b"⟩]) ["a", "b"] "d1" =
      qlAssigned (buildIndex [⟨"d1", "a b"⟩]) ["b", "a"] "d1" :=
  (c8_perm_and_repeat (buildIndex [⟨"d1", "a b"⟩]) ["a", "b"] ["b", "a"]
    (List.Perm.swap "b" "a" [])).1 "d1"
